import Mathlib

/-!
Verification development for the color-run repository: a concurrent pipeline
that fetches 5-color palettes from the colormind API, synthesizes interpolated
RGBA frames between successive colors, and adapts the frame sequence into a
raw byte stream consumed by an external encoder.

The Go sources are embedded shallowly: channels become lists (with an explicit
closed-after-drain convention where relevant), goroutine loops become
structural recursions producing traces, and `float32` arithmetic is modelled
exactly by rationals rounded to 24 significant bits with round-to-nearest,
ties-to-even (IEEE-754 binary32, which is what Go's float32 operations use;
every operation in the source is a single correctly-rounded op).  Machine
integers stay in `Nat`/`Int`; all byte values in the pipeline lie in [0,256).
-/

namespace ColorRun

/-! ## Exact rationals as integer pairs

`Rat` arithmetic is avoided because the claims are settled on concrete inputs
by kernel evaluation; `Frac` is an unnormalized fraction whose operations are
plain integer arithmetic.  `Frac.val` interprets a fraction in `ℚ` and is the
bridge used by all general lemmas.  The invariant `0 < den` is carried as a
hypothesis where proofs need it. -/

structure Frac where
  num : Int
  den : Int
deriving DecidableEq

def Frac.val (x : Frac) : ℚ := (x.num : ℚ) / (x.den : ℚ)

def Frac.ofNat (n : ℕ) : Frac := ⟨(n : Int), 1⟩

def Frac.mul (x y : Frac) : Frac := ⟨x.num * y.num, x.den * y.den⟩

def Frac.add (x y : Frac) : Frac := ⟨x.num * y.den + y.num * x.den, x.den * y.den⟩

def Frac.sub (x y : Frac) : Frac := ⟨x.num * y.den - y.num * x.den, x.den * y.den⟩

/-- Division of fractions; the sign is moved into the numerator so the
denominator stays positive when both inputs have positive denominators. -/
def Frac.div (x y : Frac) : Frac :=
  if 0 ≤ y.num then ⟨x.num * y.den, x.den * y.num⟩
  else ⟨-(x.num * y.den), x.den * (-y.num)⟩

lemma Frac.val_ofNat (n : ℕ) : (Frac.ofNat n).val = (n : ℚ) := by
  simp [Frac.val, Frac.ofNat]

lemma Frac.val_mul (x y : Frac) : (x.mul y).val = x.val * y.val := by
  simp only [Frac.val, Frac.mul]
  push_cast
  rw [div_mul_div_comm]

lemma Frac.val_add (x y : Frac) (hx : x.den ≠ 0) (hy : y.den ≠ 0) :
    (x.add y).val = x.val + y.val := by
  have hx' : ((x.den : ℚ)) ≠ 0 := Int.cast_ne_zero.mpr hx
  have hy' : ((y.den : ℚ)) ≠ 0 := Int.cast_ne_zero.mpr hy
  simp only [Frac.val, Frac.add]
  push_cast
  field_simp

lemma Frac.val_sub (x y : Frac) (hx : x.den ≠ 0) (hy : y.den ≠ 0) :
    (x.sub y).val = x.val - y.val := by
  have hx' : ((x.den : ℚ)) ≠ 0 := Int.cast_ne_zero.mpr hx
  have hy' : ((y.den : ℚ)) ≠ 0 := Int.cast_ne_zero.mpr hy
  simp only [Frac.val, Frac.sub]
  push_cast
  field_simp
  ring

lemma Frac.val_div (x y : Frac) : (x.div y).val = x.val / y.val := by
  have key : ∀ a b c d : ℚ, a / b / (c / d) = a * d / (b * c) := by
    intro a b c d
    rw [div_eq_mul_inv (a / b), inv_div, div_mul_div_comm]
  have hval : (x.div y).val = ((x.num * y.den : ℤ) : ℚ) / ((x.den * y.num : ℤ) : ℚ) := by
    by_cases h : 0 ≤ y.num
    · simp [Frac.div, if_pos h, Frac.val]
    · simp only [Frac.div, if_neg h, Frac.val]
      push_cast
      rw [mul_neg, neg_div_neg_eq]
  rw [hval, Frac.val, Frac.val, key]
  push_cast
  ring_nf

/-! ## IEEE-754 binary32 rounding, modelled exactly on rationals

Go's `float32` operations (the conversions and the `*`, `+`, `-`, `/` in
`lerp`/`mix`) are single correctly-rounded IEEE binary32 operations: the exact
rational result is rounded to 24 significant bits, round-to-nearest with ties
to even (subnormals use the fixed scale 2^-149).  Overflow/NaN never occur for
the values of this program (all inputs lie in [0, 2^32)), so the model below
covers the exercised range. -/

/-- Fuel-driven bit length: `bitlen f n` is the number of binary digits of `n`
provided `n ≤ f` (structural recursion so the kernel can evaluate it). -/
def bitlen : ℕ → ℕ → ℕ
  | 0, _ => 0
  | f + 1, n => if n = 0 then 0 else bitlen f (n / 2) + 1

/-- Number of binary digits of `n`. -/
def nbits (n : ℕ) : ℕ := bitlen n n

/-- Round a fraction to the nearest integer, ties to even.  Uses Euclidean
division so everything is plain integer arithmetic. -/
def Frac.rnde (x : Frac) : Int :=
  let q := x.num / x.den
  let r := x.num % x.den
  if 2 * r < x.den then q
  else if x.den < 2 * r then q + 1
  else if 2 ∣ q then q else q + 1

/-- The bit-length difference `nbits a - nbits b`, which is within one of
`⌊log₂ (a / b)⌋`. -/
def nbitsDiff (a b : ℕ) : Int := (nbits a : Int) - (nbits b : Int)

/-- Floor of the base-2 logarithm of `a / b` (for `a, b > 0`): the true floor
is `nbitsDiff a b` or `nbitsDiff a b - 1`, decided by testing
`2 ^ nbitsDiff a b ≤ a / b` in integer arithmetic. -/
def ratLog2 (a b : ℕ) : Int :=
  if 0 ≤ nbitsDiff a b then
    (if 2 ^ (nbitsDiff a b).toNat * b ≤ a then nbitsDiff a b else nbitsDiff a b - 1)
  else
    (if b ≤ 2 ^ (-nbitsDiff a b).toNat * a then nbitsDiff a b else nbitsDiff a b - 1)

/-- Scale `x` by `2 ^ k` exactly. -/
def Frac.scale (x : Frac) (k : Int) : Frac :=
  if 0 ≤ k then ⟨x.num * 2 ^ k.toNat, x.den⟩ else ⟨x.num, x.den * 2 ^ (-k).toNat⟩

/-- Round a positive fraction to IEEE binary32: 24-bit significand,
round-to-nearest-even, subnormal scale clamped at exponent -126.  The
significand is `rnde (x * 2 ^ (23 - e))` for `e = ⌊log₂ x⌋`. -/
def fl32exp (x : Frac) : Int := max (ratLog2 x.num.toNat x.den.toNat) (-126)

def fl32pos (x : Frac) : Frac :=
  (Frac.mk ((x.scale (23 - fl32exp x)).rnde) 1).scale (fl32exp x - 23)

/-- Round any fraction to IEEE binary32 (sign dealt with separately; zero maps
to zero).  This is the single correctly-rounded step applied by every float32
operation of the source. -/
def fl32 (x : Frac) : Frac :=
  if x.num = 0 then ⟨0, 1⟩
  else if 0 < x.num then fl32pos x
  else
    let v := fl32pos ⟨-x.num, x.den⟩
    ⟨-v.num, v.den⟩

/-- float32 conversion of a machine integer (Go `float32(n)`). -/
def f32ofNat (n : ℕ) : Frac := fl32 (Frac.ofNat n)

/-- float32 multiplication: correctly rounded product. -/
def fmul32 (x y : Frac) : Frac := fl32 (x.mul y)

/-- float32 addition: correctly rounded sum. -/
def fadd32 (x y : Frac) : Frac := fl32 (x.add y)

/-- float32 subtraction: correctly rounded difference. -/
def fsub32 (x y : Frac) : Frac := fl32 (x.sub y)

/-- float32 division: correctly rounded quotient. -/
def fdiv32 (x y : Frac) : Frac := fl32 (x.div y)

/-- Go conversion `uint8(v)` of a nonnegative float32 value `v < 256`:
truncation toward zero. -/
def truncU8 (x : Frac) : ℕ := (x.num / x.den).toNat

/-! ### Value-level characterization of the rounding primitives -/

/-- Round-to-nearest-ties-to-even on `ℚ`, the mathematical counterpart of
`Frac.rnde` (used only in proofs). -/
def rndeQ (v : ℚ) : Int :=
  if v - ⌊v⌋ < 1 / 2 then ⌊v⌋
  else if 1 / 2 < v - ⌊v⌋ then ⌊v⌋ + 1
  else if 2 ∣ ⌊v⌋ then ⌊v⌋ else ⌊v⌋ + 1

lemma Frac.ediv_eq_floor (x : Frac) (hd : 0 < x.den) : x.num / x.den = ⌊x.val⌋ := by
  have hd' : (0 : ℚ) < (x.den : ℚ) := by exact_mod_cast hd
  have hmod : ((x.num % x.den : Int) : ℚ) + (x.den : ℚ) * ((x.num / x.den : Int) : ℚ)
      = (x.num : ℚ) := by exact_mod_cast Int.emod_add_ediv x.num x.den
  have hr0 : (0 : ℚ) ≤ ((x.num % x.den : Int) : ℚ) := by
    exact_mod_cast Int.emod_nonneg x.num (by omega)
  have hrlt : ((x.num % x.den : Int) : ℚ) < (x.den : ℚ) := by
    exact_mod_cast Int.emod_lt_of_pos x.num hd
  symm
  rw [Int.floor_eq_iff]
  constructor
  · rw [Frac.val, le_div_iff₀ hd']
    nlinarith
  · rw [Frac.val, div_lt_iff₀ hd']
    nlinarith

lemma Frac.frac_eq (x : Frac) (hd : 0 < x.den) :
    x.val - ((x.num / x.den : Int) : ℚ) = ((x.num % x.den : Int) : ℚ) / (x.den : ℚ) := by
  have hd' : (0 : ℚ) < (x.den : ℚ) := by exact_mod_cast hd
  have hmod : ((x.num % x.den : Int) : ℚ) + (x.den : ℚ) * ((x.num / x.den : Int) : ℚ)
      = (x.num : ℚ) := by exact_mod_cast Int.emod_add_ediv x.num x.den
  rw [Frac.val]
  field_simp
  linarith

lemma Frac.rnde_eq_rndeQ (x : Frac) (hd : 0 < x.den) : x.rnde = rndeQ x.val := by
  have hd' : (0 : ℚ) < (x.den : ℚ) := by exact_mod_cast hd
  have hfloor := Frac.ediv_eq_floor x hd
  have hfrac := Frac.frac_eq x hd
  have c1 : (2 * (x.num % x.den) < x.den) ↔
      (((x.num % x.den : Int) : ℚ) / (x.den : ℚ) < 1 / 2) := by
    rw [div_lt_div_iff₀ hd' (by norm_num : (0:ℚ) < 2)]
    constructor
    · intro h
      have h' : ((2 * (x.num % x.den) : Int) : ℚ) < ((x.den : Int) : ℚ) := Int.cast_lt.mpr h
      push_cast at h'
      linarith
    · intro h
      have h' : ((2 * (x.num % x.den) : Int) : ℚ) < ((x.den : Int) : ℚ) := by
        push_cast
        linarith
      exact Int.cast_lt.mp h'
  have c2 : (x.den < 2 * (x.num % x.den)) ↔
      ((1 : ℚ) / 2 < ((x.num % x.den : Int) : ℚ) / (x.den : ℚ)) := by
    rw [div_lt_div_iff₀ (by norm_num : (0:ℚ) < 2) hd']
    constructor
    · intro h
      have h' : ((x.den : Int) : ℚ) < ((2 * (x.num % x.den) : Int) : ℚ) := Int.cast_lt.mpr h
      push_cast at h'
      linarith
    · intro h
      have h' : ((x.den : Int) : ℚ) < ((2 * (x.num % x.den) : Int) : ℚ) := by
        push_cast
        linarith
      exact Int.cast_lt.mp h'
  simp only [Frac.rnde, rndeQ, ← hfloor, hfrac]
  exact if_congr c1 rfl (if_congr c2 rfl (if_congr Iff.rfl rfl rfl))

lemma rndeQ_le (v : ℚ) : (rndeQ v : ℚ) ≤ v + 1 / 2 := by
  have h0 : (⌊v⌋ : ℚ) ≤ v := Int.floor_le v
  unfold rndeQ
  by_cases h1 : v - ⌊v⌋ < 1 / 2
  · rw [if_pos h1]; linarith
  · rw [if_neg h1]
    have h1' : 1 / 2 ≤ v - ⌊v⌋ := le_of_not_lt h1
    by_cases h2 : 1 / 2 < v - ⌊v⌋
    · rw [if_pos h2]; push_cast; linarith
    · rw [if_neg h2]
      by_cases h3 : 2 ∣ ⌊v⌋
      · rw [if_pos h3]; linarith
      · rw [if_neg h3]; push_cast; linarith

lemma le_rndeQ (v : ℚ) : v - 1 / 2 ≤ (rndeQ v : ℚ) := by
  have h0 : v < ⌊v⌋ + 1 := Int.lt_floor_add_one v
  unfold rndeQ
  by_cases h1 : v - ⌊v⌋ < 1 / 2
  · rw [if_pos h1]; linarith
  · rw [if_neg h1]
    have h1' : 1 / 2 ≤ v - ⌊v⌋ := le_of_not_lt h1
    by_cases h2 : 1 / 2 < v - ⌊v⌋
    · rw [if_pos h2]; push_cast; linarith
    · rw [if_neg h2]
      by_cases h3 : 2 ∣ ⌊v⌋
      · rw [if_pos h3]; linarith
      · rw [if_neg h3]; push_cast; linarith

lemma rndeQ_intCast (k : Int) : rndeQ (k : ℚ) = k := by
  unfold rndeQ
  rw [Int.floor_intCast]
  rw [if_pos (by norm_num)]

lemma bitlen_spec : ∀ f n : ℕ, 0 < n → n ≤ f →
    0 < bitlen f n ∧ 2 ^ (bitlen f n - 1) ≤ n ∧ n < 2 ^ bitlen f n := by
  intro f
  induction f with
  | zero => intro n h1 h2; omega
  | succ f ih =>
    intro n h1 h2
    rw [bitlen, if_neg (by omega : ¬ n = 0)]
    by_cases hn : n = 1
    · subst hn
      have h0 : bitlen f (1 / 2) = 0 := by
        cases f with
        | zero => rfl
        | succ f => rw [bitlen]; norm_num
      rw [h0]
      norm_num
    · have hge2 : 2 ≤ n := by omega
      have hhalf : 0 < n / 2 := by omega
      have hle : n / 2 ≤ f := by omega
      obtain ⟨hpos, hlow, hhigh⟩ := ih (n / 2) hhalf hle
      set k := bitlen f (n / 2) with hk
      refine ⟨by omega, ?_, ?_⟩
      · have h4 : 2 ^ k ≤ 2 * (n / 2) := by
          have h2 : 2 ^ k = 2 * 2 ^ (k - 1) := by
            rw [← pow_succ']
            congr 1
            omega
          omega
        rw [Nat.add_sub_cancel]
        omega
      · have h2 : n < 2 * (n / 2) + 2 := by omega
        have h3 : 2 * (n / 2) + 2 ≤ 2 * 2 ^ k := by omega
        calc n < 2 * (n / 2) + 2 := h2
          _ ≤ 2 * 2 ^ k := h3
          _ = 2 ^ (k + 1) := by rw [pow_succ']

lemma nbits_spec (n : ℕ) (h : 0 < n) :
    0 < nbits n ∧ 2 ^ (nbits n - 1) ≤ n ∧ n < 2 ^ nbits n :=
  bitlen_spec n n h le_rfl

/-- Powers of two in `ℚ` with integer exponent are positive. -/
lemma two_zpow_pos (e : Int) : (0 : ℚ) < 2 ^ e := zpow_pos (by norm_num) e

lemma ratLog2_spec (a b : ℕ) (ha : 0 < a) (hb : 0 < b) :
    (2 : ℚ) ^ ratLog2 a b ≤ (a : ℚ) / (b : ℚ) ∧
      (a : ℚ) / (b : ℚ) < (2 : ℚ) ^ (ratLog2 a b + 1) := by
  have hb' : (0 : ℚ) < (b : ℚ) := by exact_mod_cast hb
  obtain ⟨hna, hla, hha⟩ := nbits_spec a ha
  obtain ⟨hnb, hlb, hhb⟩ := nbits_spec b hb
  rw [ratLog2]
  set e0 : Int := nbitsDiff a b with he0
  rw [nbitsDiff] at he0
  -- cast the bitlength bounds into ℚ with zpow exponents
  have hlaQ : (2 : ℚ) ^ ((nbits a : Int) - 1) ≤ (a : ℚ) := by
    have h1 : ((2 : ℚ) ^ (nbits a - 1 : ℕ) : ℚ) ≤ (a : ℚ) := by exact_mod_cast hla
    calc (2 : ℚ) ^ ((nbits a : Int) - 1) = (2 : ℚ) ^ ((nbits a - 1 : ℕ) : Int) := by
          congr 1
          omega
      _ = (2 : ℚ) ^ (nbits a - 1 : ℕ) := by rw [zpow_natCast]
      _ ≤ (a : ℚ) := h1
  have hhaQ : (a : ℚ) < (2 : ℚ) ^ (nbits a : Int) := by
    have h1 : (a : ℚ) < (2 : ℚ) ^ (nbits a : ℕ) := by exact_mod_cast hha
    rwa [zpow_natCast]
  have hlbQ : (2 : ℚ) ^ ((nbits b : Int) - 1) ≤ (b : ℚ) := by
    have h1 : ((2 : ℚ) ^ (nbits b - 1 : ℕ) : ℚ) ≤ (b : ℚ) := by exact_mod_cast hlb
    calc (2 : ℚ) ^ ((nbits b : Int) - 1) = (2 : ℚ) ^ ((nbits b - 1 : ℕ) : Int) := by
          congr 1
          omega
      _ = (2 : ℚ) ^ (nbits b - 1 : ℕ) := by rw [zpow_natCast]
      _ ≤ (b : ℚ) := h1
  have hhbQ : (b : ℚ) < (2 : ℚ) ^ (nbits b : Int) := by
    have h1 : (b : ℚ) < (2 : ℚ) ^ (nbits b : ℕ) := by exact_mod_cast hhb
    rwa [zpow_natCast]
  -- the quotient is between 2^(e0-1) and 2^(e0+1)
  have hq_lo : (2 : ℚ) ^ (e0 - 1) < (a : ℚ) / (b : ℚ) := by
    rw [lt_div_iff₀ hb']
    calc (2 : ℚ) ^ (e0 - 1) * (b : ℚ) < 2 ^ (e0 - 1) * 2 ^ (nbits b : Int) :=
          mul_lt_mul_of_pos_left hhbQ (two_zpow_pos _)
      _ = 2 ^ ((nbits a : Int) - 1) := by
          rw [← zpow_add₀ (by norm_num : (2:ℚ) ≠ 0)]
          congr 1
          omega
      _ ≤ (a : ℚ) := hlaQ
  have hq_hi : (a : ℚ) / (b : ℚ) < (2 : ℚ) ^ (e0 + 1) := by
    rw [div_lt_iff₀ hb']
    calc (a : ℚ) < 2 ^ (nbits a : Int) := hhaQ
      _ = 2 ^ (e0 + 1) * 2 ^ ((nbits b : Int) - 1) := by
          rw [← zpow_add₀ (by norm_num : (2:ℚ) ≠ 0)]
          congr 1
          omega
      _ ≤ 2 ^ (e0 + 1) * (b : ℚ) :=
          mul_le_mul_of_nonneg_left hlbQ (le_of_lt (two_zpow_pos _))
  -- the test `2 ^ e0 ≤ a / b` decides between e0 and e0 - 1
  have htest : ∀ r : Prop, ∀ hdec : Decidable r, (r ↔ (2 : ℚ) ^ e0 ≤ (a : ℚ) / (b : ℚ)) →
      (2 : ℚ) ^ (if r then e0 else e0 - 1) ≤ (a : ℚ) / (b : ℚ) ∧
      (a : ℚ) / (b : ℚ) < (2 : ℚ) ^ ((if r then e0 else e0 - 1) + 1) := by
    intro r hdec hiff
    by_cases hr : r
    · rw [if_pos hr]
      exact ⟨hiff.mp hr, hq_hi⟩
    · rw [if_neg hr]
      constructor
      · exact le_of_lt hq_lo
      · have h1 : ¬ (2 : ℚ) ^ e0 ≤ (a : ℚ) / (b : ℚ) := fun hc => hr (hiff.mpr hc)
        have h2 : (a : ℚ) / (b : ℚ) < 2 ^ e0 := lt_of_not_le h1
        calc (a : ℚ) / (b : ℚ) < 2 ^ e0 := h2
          _ = 2 ^ (e0 - 1 + 1) := by congr 1; omega
  by_cases hsign : 0 ≤ e0
  · rw [if_pos hsign]
    refine htest _ _ ?_
    rw [le_div_iff₀ hb']
    have hz : (2 : ℚ) ^ e0 = ((2 ^ e0.toNat : ℕ) : ℚ) := by
      push_cast
      rw [← zpow_natCast (2 : ℚ) e0.toNat]
      congr 1
      omega
    constructor
    · intro h
      have h' : ((2 ^ e0.toNat * b : ℕ) : ℚ) ≤ (a : ℚ) := by exact_mod_cast h
      calc (2 : ℚ) ^ e0 * (b : ℚ) = ((2 ^ e0.toNat * b : ℕ) : ℚ) := by
            rw [hz]; push_cast; ring
        _ ≤ (a : ℚ) := h'
    · intro h
      have h' : ((2 ^ e0.toNat * b : ℕ) : ℚ) ≤ (a : ℚ) := by
        calc ((2 ^ e0.toNat * b : ℕ) : ℚ) = (2 : ℚ) ^ e0 * (b : ℚ) := by
              rw [hz]; push_cast; ring
          _ ≤ (a : ℚ) := h
      exact_mod_cast h'
  · rw [if_neg hsign]
    refine htest _ _ ?_
    have hzm : ((2 ^ (-e0).toNat : ℕ) : ℚ) = (2 : ℚ) ^ (-e0) := by
      push_cast
      rw [← zpow_natCast (2 : ℚ) (-e0).toNat]
      congr 1
      omega
    have hcancel : (2 : ℚ) ^ (-e0) * (2 : ℚ) ^ e0 = 1 := by
      rw [← zpow_add₀ (by norm_num : (2:ℚ) ≠ 0)]
      norm_num
    rw [le_div_iff₀ hb']
    constructor
    · intro h
      have h' : ((b : ℕ) : ℚ) ≤ ((2 ^ (-e0).toNat * a : ℕ) : ℚ) := by exact_mod_cast h
      rw [Nat.cast_mul, hzm] at h'
      have h2 := mul_le_mul_of_nonneg_left h' (le_of_lt (two_zpow_pos e0))
      calc (2 : ℚ) ^ e0 * (b : ℚ) ≤ 2 ^ e0 * (2 ^ (-e0) * (a : ℚ)) := h2
        _ = (2 ^ (-e0) * 2 ^ e0) * (a : ℚ) := by ring
        _ = (a : ℚ) := by rw [hcancel, one_mul]
    · intro h
      have h2 := mul_le_mul_of_nonneg_left h (le_of_lt (two_zpow_pos (-e0)))
      have h' : (b : ℚ) ≤ ((2 ^ (-e0).toNat * a : ℕ) : ℚ) := by
        rw [Nat.cast_mul, hzm]
        calc (b : ℚ) = (2 ^ (-e0) * 2 ^ e0) * (b : ℚ) := by rw [hcancel, one_mul]
          _ = 2 ^ (-e0) * (2 ^ e0 * (b : ℚ)) := by ring
          _ ≤ 2 ^ (-e0) * (a : ℚ) := h2
      exact_mod_cast h'


lemma rndeQ_nonneg (v : ℚ) (hv : 0 ≤ v) : 0 ≤ rndeQ v := by
  have h0 : (0 : Int) ≤ ⌊v⌋ := Int.floor_nonneg.mpr hv
  unfold rndeQ
  by_cases h1 : v - ⌊v⌋ < 1 / 2
  · rw [if_pos h1]; exact h0
  · rw [if_neg h1]
    by_cases h2 : 1 / 2 < v - ⌊v⌋
    · rw [if_pos h2]; omega
    · rw [if_neg h2]
      by_cases h3 : 2 ∣ ⌊v⌋
      · rw [if_pos h3]; exact h0
      · rw [if_neg h3]; omega


/-- Floor log2 of a positive rational, computed from its normal form
(proof-level counterpart of the `ratLog2` call inside `fl32pos`). -/
def log2Q (v : ℚ) : Int := ratLog2 v.num.toNat v.den

lemma log2Q_spec (v : ℚ) (hv : 0 < v) :
    (2 : ℚ) ^ log2Q v ≤ v ∧ v < (2 : ℚ) ^ (log2Q v + 1) := by
  have hnum : 0 < v.num := Rat.num_pos.mpr hv
  have hden : 0 < v.den := v.pos
  have hcast : ((v.num.toNat : ℕ) : ℚ) / ((v.den : ℕ) : ℚ) = v := by
    have h1 : ((v.num.toNat : ℕ) : ℚ) = ((v.num : Int) : ℚ) := by
      exact_mod_cast congrArg (fun z : Int => (z : ℚ)) (Int.toNat_of_nonneg (le_of_lt hnum))
    rw [h1]
    exact Rat.num_div_den v
  have hspec := ratLog2_spec v.num.toNat v.den (by omega) hden
  rw [hcast] at hspec
  exact hspec

/-- Uniqueness of the binary logarithm bracket. -/
lemma log2_bracket_uniq (v : ℚ) (e1 e2 : Int)
    (h1 : (2 : ℚ) ^ e1 ≤ v ∧ v < (2 : ℚ) ^ (e1 + 1))
    (h2 : (2 : ℚ) ^ e2 ≤ v ∧ v < (2 : ℚ) ^ (e2 + 1)) : e1 = e2 := by
  by_contra hne
  rcases lt_or_gt_of_ne hne with hlt | hgt
  · have hstep : (2 : ℚ) ^ (e1 + 1) ≤ 2 ^ e2 :=
      zpow_le_zpow_right₀ (by norm_num) (by omega)
    linarith [h1.2, h2.1]
  · have hstep : (2 : ℚ) ^ (e2 + 1) ≤ 2 ^ e1 :=
      zpow_le_zpow_right₀ (by norm_num) (by omega)
    linarith [h1.1, h2.2]

lemma ratLog2_eq_log2Q (a b : ℕ) (ha : 0 < a) (hb : 0 < b) :
    ratLog2 a b = log2Q ((a : ℚ) / (b : ℚ)) := by
  have hv : (0 : ℚ) < (a : ℚ) / (b : ℚ) :=
    div_pos (by exact_mod_cast ha) (by exact_mod_cast hb)
  exact log2_bracket_uniq _ _ _ (ratLog2_spec a b ha hb) (log2Q_spec _ hv)

/-- The mathematical binary32 rounding of a positive rational (proof-level
counterpart of `fl32pos`). -/
def fl32Q (v : ℚ) : ℚ :=
  (rndeQ (v * 2 ^ (23 - max (log2Q v) (-126))) : ℚ) * 2 ^ (max (log2Q v) (-126) - 23)

lemma Frac.scale_val (x : Frac) (k : Int) : (x.scale k).val = x.val * 2 ^ k := by
  unfold Frac.scale
  by_cases hk : 0 ≤ k
  · rw [if_pos hk]
    unfold Frac.val
    push_cast
    rw [mul_div_right_comm]
    congr 1
    rw [← zpow_natCast (2 : ℚ) k.toNat]
    congr 1
    omega
  · rw [if_neg hk]
    unfold Frac.val
    push_cast
    rw [div_mul_eq_div_div]
    rw [div_eq_mul_inv (((x.num : ℚ)) / _), ← zpow_natCast (2 : ℚ) (-k).toNat, ← zpow_neg]
    congr 2
    omega

lemma Frac.scale_den_pos (x : Frac) (k : Int) (hd : 0 < x.den) : 0 < (x.scale k).den := by
  unfold Frac.scale
  by_cases hk : 0 ≤ k
  · rwa [if_pos hk]
  · rw [if_neg hk]
    exact mul_pos hd (pow_pos (by norm_num) _)

lemma fl32exp_eq (x : Frac) (hn : 0 < x.num) (hd : 0 < x.den) :
    fl32exp x = max (log2Q x.val) (-126) := by
  unfold fl32exp
  congr 1
  rw [ratLog2_eq_log2Q x.num.toNat x.den.toNat (by omega) (by omega)]
  congr 1
  unfold Frac.val
  congr 1 <;> [skip; skip]
  · exact_mod_cast congrArg (fun z : Int => (z : ℚ)) (Int.toNat_of_nonneg (le_of_lt hn))
  · exact_mod_cast congrArg (fun z : Int => (z : ℚ)) (Int.toNat_of_nonneg (le_of_lt hd))

lemma fl32pos_val (x : Frac) (hn : 0 < x.num) (hd : 0 < x.den) :
    (fl32pos x).val = fl32Q x.val := by
  unfold fl32pos fl32Q
  have hy : (x.scale (23 - fl32exp x)).val = x.val * 2 ^ (23 - fl32exp x) :=
    Frac.scale_val x _
  have hyden : 0 < (x.scale (23 - fl32exp x)).den := Frac.scale_den_pos x _ hd
  rw [Frac.scale_val, Frac.rnde_eq_rndeQ _ hyden, hy]
  rw [fl32exp_eq x hn hd]
  unfold Frac.val
  norm_num

lemma fl32_den_pos (x : Frac) : 0 < (fl32 x).den := by
  have hpos : ∀ y : Frac, 0 < (fl32pos y).den := by
    intro y
    unfold fl32pos Frac.scale
    by_cases hk : (0 : Int) ≤ fl32exp y - 23
    · rw [if_pos hk]; norm_num
    · rw [if_neg hk]
      simp only []
      exact mul_pos (by norm_num) (pow_pos (by norm_num) _)
  unfold fl32
  by_cases h0 : x.num = 0
  · rw [if_pos h0]; norm_num
  · rw [if_neg h0]
    by_cases h1 : 0 < x.num
    · rw [if_pos h1]; exact hpos x
    · rw [if_neg h1]; exact hpos _

lemma fl32_val_pos (x : Frac) (hn : 0 < x.num) (hd : 0 < x.den) :
    (fl32 x).val = fl32Q x.val := by
  unfold fl32
  rw [if_neg (by omega), if_pos hn]
  exact fl32pos_val x hn hd

lemma fl32_val_zeroNum (x : Frac) (h0 : x.num = 0) : fl32 x = ⟨0, 1⟩ := by
  unfold fl32
  rw [if_pos h0]



lemma fl32Q_nonneg (v : ℚ) (hv : 0 ≤ v) : 0 ≤ fl32Q v := by
  unfold fl32Q
  have h1 : (0 : Int) ≤ rndeQ (v * 2 ^ (23 - max (log2Q v) (-126))) :=
    rndeQ_nonneg _ (mul_nonneg hv (le_of_lt (two_zpow_pos _)))
  exact mul_nonneg (by exact_mod_cast h1) (le_of_lt (two_zpow_pos _))

lemma fl32Q_le (v : ℚ) :
    fl32Q v ≤ v + 2 ^ (max (log2Q v) (-126) - 24) := by
  unfold fl32Q
  have h1 := rndeQ_le (v * 2 ^ (23 - max (log2Q v) (-126)))
  have h2 := mul_le_mul_of_nonneg_right h1 (le_of_lt (two_zpow_pos (max (log2Q v) (-126) - 23)))
  calc (rndeQ (v * 2 ^ (23 - max (log2Q v) (-126))) : ℚ) * 2 ^ (max (log2Q v) (-126) - 23)
      ≤ (v * 2 ^ (23 - max (log2Q v) (-126)) + 1 / 2) * 2 ^ (max (log2Q v) (-126) - 23) := h2
    _ = v * (2 ^ (23 - max (log2Q v) (-126)) * 2 ^ (max (log2Q v) (-126) - 23))
        + 1 / 2 * 2 ^ (max (log2Q v) (-126) - 23) := by ring
    _ = v + 2 ^ (max (log2Q v) (-126) - 24) := by
        rw [← zpow_add₀ (by norm_num : (2:ℚ) ≠ 0)]
        norm_num
        rw [show max (log2Q v) (-126) - 24 = (max (log2Q v) (-126) - 23) + (-1) by omega,
          zpow_add₀ (by norm_num : (2:ℚ) ≠ 0)]
        rw [mul_comm]
        norm_num

lemma fl32Q_ge (v : ℚ) :
    v - 2 ^ (max (log2Q v) (-126) - 24) ≤ fl32Q v := by
  unfold fl32Q
  have h1 := le_rndeQ (v * 2 ^ (23 - max (log2Q v) (-126)))
  have h2 := mul_le_mul_of_nonneg_right h1 (le_of_lt (two_zpow_pos (max (log2Q v) (-126) - 23)))
  calc v - 2 ^ (max (log2Q v) (-126) - 24)
      = v * (2 ^ (23 - max (log2Q v) (-126)) * 2 ^ (max (log2Q v) (-126) - 23))
        - 1 / 2 * 2 ^ (max (log2Q v) (-126) - 23) := by
        rw [← zpow_add₀ (by norm_num : (2:ℚ) ≠ 0)]
        norm_num
        rw [show max (log2Q v) (-126) - 24 = (max (log2Q v) (-126) - 23) + (-1) by omega,
          zpow_add₀ (by norm_num : (2:ℚ) ≠ 0)]
        rw [mul_comm]
        norm_num
    _ = (v * 2 ^ (23 - max (log2Q v) (-126)) - 1 / 2) * 2 ^ (max (log2Q v) (-126) - 23) := by
        ring
    _ ≤ (rndeQ (v * 2 ^ (23 - max (log2Q v) (-126))) : ℚ) * 2 ^ (max (log2Q v) (-126) - 23) := h2

/-- binary32 rounding is exact on values `m * 2 ^ k` with `m ≤ 2 ^ 24` and
`k ≥ -126` (in particular on machine integers up to `2 ^ 24`). -/
lemma fl32Q_exact_scaled (m : ℕ) (k : Int) (h1 : 0 < m) (h2 : m ≤ 2 ^ 24)
    (hk : -126 ≤ k) : fl32Q ((m : ℚ) * 2 ^ k) = (m : ℚ) * 2 ^ k := by
  set v : ℚ := (m : ℚ) * 2 ^ k with hv
  have hm' : (1 : ℚ) ≤ (m : ℚ) := by exact_mod_cast h1
  have hvpos : 0 < v := by
    rw [hv]
    exact mul_pos (by linarith) (two_zpow_pos k)
  obtain ⟨hlo, hhi⟩ := log2Q_spec v hvpos
  set e : Int := log2Q v with he
  -- k ≤ e, hence the subnormal clamp is inactive
  have hke : k ≤ e := by
    by_contra hc
    have h3 : (2 : ℚ) ^ k ≤ v := by
      rw [hv]
      nlinarith [two_zpow_pos k]
    have h4 : (2 : ℚ) ^ (e + 1) ≤ 2 ^ k := zpow_le_zpow_right₀ (by norm_num) (by omega)
    linarith
  have hclamp : max e (-126) = e := max_eq_left (by omega)
  -- e ≤ k + 24, and if e = k + 24 then m = 2 ^ 24
  have hek : e ≤ k + 24 := by
    by_contra hc
    have h3 : (2 : ℚ) ^ (k + 24) * 2 ^ (1 : Int) ≤ 2 ^ e :=
      le_of_eq_of_le (by rw [← zpow_add₀ (by norm_num : (2:ℚ) ≠ 0)]) (zpow_le_zpow_right₀ (by norm_num) (by omega))
    have h4 : v < 2 ^ k * 2 ^ (24 : Int) * 2 ^ (1 : Int) := by
      rw [hv]
      have hmlt : (m : ℚ) < 2 ^ (24 : Int) * 2 := by
        have : (m : ℚ) ≤ ((2 ^ 24 : ℕ) : ℚ) := by exact_mod_cast h2
        push_cast at this
        have h24 : ((2 : ℚ) ^ (24 : ℕ) : ℚ) = (2 : ℚ) ^ (24 : Int) := by
          rw [← zpow_natCast]
          norm_num
        nlinarith [two_zpow_pos (24 : Int)]
      nlinarith [two_zpow_pos k]
    have h5 : (2 : ℚ) ^ k * 2 ^ (24 : Int) * 2 ^ (1 : Int) = 2 ^ (k + 24) * 2 ^ (1 : Int) := by
      rw [← zpow_add₀ (by norm_num : (2:ℚ) ≠ 0)]
    nlinarith [hlo, two_zpow_pos (e : Int)]
  -- the scaled significand is an integer
  have hint : ∃ j : Int, v * 2 ^ (23 - e) = (j : ℚ) := by
    by_cases hcase : e ≤ k + 23
    · refine ⟨(m : Int) * 2 ^ (k + 23 - e).toNat, ?_⟩
      rw [hv]
      push_cast
      rw [← zpow_natCast (2 : ℚ) (k + 23 - e).toNat]
      rw [show ((k + 23 - e).toNat : Int) = k + 23 - e by omega]
      rw [mul_assoc, ← zpow_add₀ (by norm_num : (2:ℚ) ≠ 0)]
      congr 2
      omega
    · -- e = k + 24 forces m = 2 ^ 24
      have he24 : e = k + 24 := by omega
      have hm24 : m = 2 ^ 24 := by
        by_contra hm
        have hmlt : (m : ℚ) < 2 ^ (24 : Int) := by
          have h6 : m < 2 ^ 24 := by omega
          have h7 : (m : ℚ) < ((2 ^ 24 : ℕ) : ℚ) := by exact_mod_cast h6
          push_cast at h7
          calc (m : ℚ) < (2 : ℚ) ^ (24 : ℕ) := h7
            _ = (2 : ℚ) ^ (24 : Int) := by rw [← zpow_natCast]; norm_num
        have h8 : v < 2 ^ e := by
          rw [hv, he24, zpow_add₀ (by norm_num : (2:ℚ) ≠ 0)]
          calc (m : ℚ) * 2 ^ k < 2 ^ (24 : Int) * 2 ^ k := by
                nlinarith [two_zpow_pos k]
            _ = 2 ^ k * 2 ^ (24 : Int) := by ring
        linarith
      refine ⟨2 ^ 23, ?_⟩
      rw [hv, hm24, he24]
      push_cast
      rw [mul_assoc, ← zpow_add₀ (by norm_num : (2:ℚ) ≠ 0)]
      rw [show k + (23 - (k + 24)) = (-1 : Int) by omega]
      rw [zpow_neg, zpow_one]
      norm_num
  obtain ⟨j, hj⟩ := hint
  unfold fl32Q
  rw [← he, hclamp, hj, rndeQ_intCast, ← hj]
  rw [mul_assoc, ← zpow_add₀ (by norm_num : (2:ℚ) ≠ 0)]
  norm_num

lemma fl32Q_natCast (n : ℕ) (h1 : 0 < n) (h2 : n ≤ 2 ^ 24) : fl32Q (n : ℚ) = (n : ℚ) := by
  have h3 := fl32Q_exact_scaled n 0 h1 h2 (by omega)
  norm_num at h3
  exact h3

/-- binary32 rounding of a positive value at most `1 - 2⁻²⁴` stays below 1. -/
lemma fl32Q_lt_one (v : ℚ) (h0 : 0 < v) (h1 : v ≤ 1 - 2 ^ (-24 : Int)) : fl32Q v < 1 := by
  obtain ⟨hlo, hhi⟩ := log2Q_spec v h0
  have hv1 : v < 1 := by
    have : (0 : ℚ) < 2 ^ (-24 : Int) := two_zpow_pos _
    linarith
  have he1 : log2Q v ≤ -1 := by
    by_contra hc
    have h2 : (1 : ℚ) = 2 ^ (0 : Int) := by norm_num
    have h3 : (2 : ℚ) ^ (0 : Int) ≤ 2 ^ log2Q v := zpow_le_zpow_right₀ (by norm_num) (by omega)
    linarith
  have hclamp : max (log2Q v) (-126) - 24 ≤ -25 := by
    rcases max_cases (log2Q v) (-126) with ⟨hm, _⟩ | ⟨hm, _⟩ <;> omega
  have h4 : (2 : ℚ) ^ (max (log2Q v) (-126) - 24) ≤ 2 ^ (-25 : Int) :=
    zpow_le_zpow_right₀ (by norm_num) hclamp
  have h5 := fl32Q_le v
  have h6 : (2 : ℚ) ^ (-25 : Int) < 2 ^ (-24 : Int) :=
    zpow_lt_zpow_right₀ (by norm_num) (by omega)
  linarith



lemma Frac.scale_num_nonneg (x : Frac) (k : Int) (h : 0 ≤ x.num) : 0 ≤ (x.scale k).num := by
  unfold Frac.scale
  by_cases hk : 0 ≤ k
  · rw [if_pos hk]
    exact mul_nonneg h (pow_nonneg (by norm_num) _)
  · rw [if_neg hk]
    exact h

lemma fl32_num_nonneg (x : Frac) (hn : 0 ≤ x.num) (hd : 0 < x.den) : 0 ≤ (fl32 x).num := by
  unfold fl32
  by_cases h0 : x.num = 0
  · rw [if_pos h0]
  · rw [if_neg h0, if_pos (by omega)]
    have hyden : 0 < (x.scale (23 - fl32exp x)).den := Frac.scale_den_pos x _ hd
    have hynum : 0 ≤ (x.scale (23 - fl32exp x)).num := Frac.scale_num_nonneg x _ hn
    have hr : 0 ≤ (x.scale (23 - fl32exp x)).rnde := by
      rw [Frac.rnde_eq_rndeQ _ hyden]
      refine rndeQ_nonneg _ ?_
      unfold Frac.val
      exact div_nonneg (by exact_mod_cast hynum) (by exact_mod_cast le_of_lt hyden)
    unfold fl32pos
    exact Frac.scale_num_nonneg _ _ hr

lemma truncU8_val_natCast (x : Frac) (hd : 0 < x.den) (n : ℕ) (h : x.val = (n : ℚ)) :
    truncU8 x = n := by
  unfold truncU8
  rw [Frac.ediv_eq_floor x hd, h]
  simp

/-! ## Data model: colors and the interpolation primitive -/

/-- Go `color.RGBA`: four 8-bit channels.  Channel values are `Nat`s in
[0, 256); the bound is carried as hypotheses where proofs need it. -/
structure RGBA where
  r : ℕ
  g : ℕ
  b : ℕ
  a : ℕ
deriving DecidableEq

/-- One channel of `mix`/`lerp` (lineargradient.go:207-213 `mix`,
lineargradient.go:272-279 `lerp`, and the textually identical copies in
producer.go and cmd/main.go): `uint8(float32(c1)*(1.0-ratio) +
float32(c2)*ratio)`, every operation a single float32 op. -/
def mixChan (c1 c2 : ℕ) (ratio : Frac) : ℕ :=
  truncU8 (fadd32 (fmul32 (f32ofNat c1) (fsub32 ⟨1, 1⟩ ratio)) (fmul32 (f32ofNat c2) ratio))

/-- `mix`/`lerp` on colors: channelwise interpolation. -/
def mix (c1 c2 : RGBA) (ratio : Frac) : RGBA :=
  ⟨mixChan c1.r c2.r ratio, mixChan c1.g c2.g ratio,
   mixChan c1.b c2.b ratio, mixChan c1.a c2.a ratio⟩

/-- The sampled ratio `float32(frame) / float32(transition)` of the frame
loops (lineargradient.go:164, cmd/main.go:242, producer.go:135). -/
def ratioF32 (frame transition : ℕ) : Frac :=
  fdiv32 (f32ofNat frame) (f32ofNat transition)

/-- The specification formula for one interpolated channel, written from the
spec text: "a mix ratio r = frame / transitionFrames (0 ≤ r < 1, using
single-precision arithmetic) is used to interpolate every channel
independently: out = left*(1-r) + right*r, truncated to an 8-bit integer" —
with "single-precision" making each operation a correctly rounded float32
op. -/
def mixSpecChan (left right : ℕ) (r : Frac) : ℕ :=
  truncU8 (fadd32 (fmul32 (f32ofNat left) (fsub32 ⟨1, 1⟩ r)) (fmul32 (f32ofNat right) r))

/-! ## FrameSynthesizer embeddings

Channels are embedded as the list of values they deliver before being closed;
a receive on the exhausted list is the failed receive on a closed channel
(`v, ok := <-ch` with `ok = false` and `v = nil`). -/

/-- cmd/main.go:244-253: one full frame, `width*height` pixels of 4 bytes
R,G,B,A each (the x/y loops write every pixel position `y*stride + x*4 + ch`
exactly once, all pixels with the same interpolated color). -/
def mkImage (w h : ℕ) (c : RGBA) : List ℕ :=
  (List.replicate (w * h) [c.r, c.g, c.b, c.a]).flatten

/-- The `transitionFrames` frames the synthesis loop emits for one
(left, right) pair (cmd/main.go:241-254). -/
def pairFrames (tf w h : ℕ) (left right : RGBA) : List (List ℕ) :=
  (List.range tf).map (fun frame => mkImage w h (mix left right (ratioF32 frame tf)))

inductive SynthOutcome where
  | closedOut
  | panicked
deriving DecidableEq

/-- cmd/main.go:220-264, the frame-synthesis goroutine, run on the sequence of
colors the color channel delivers before being closed.  `left` holds the color
kept from the previous pair (`right` is always nil at the loop head).  When
the channel is closed and a receive fails, `done` is set but the iteration
still runs the frame loop, so `lerp` dereferences a nil `*color.RGBA` and
panics whenever `transitionFrames > 0`; `close(imageChannel)` is reached only
when the frame loop is empty. -/
def synthGo (tf w h : ℕ) : Option RGBA → List RGBA → List (List ℕ) × SynthOutcome
  | none, [] => ([], if tf = 0 then .closedOut else .panicked)
  | none, [_] => ([], if tf = 0 then .closedOut else .panicked)
  | none, c1 :: c2 :: rest =>
      let t := synthGo tf w h (some c2) rest
      (pairFrames tf w h c1 c2 ++ t.1, t.2)
  | some _, [] => ([], if tf = 0 then .closedOut else .panicked)
  | some l, c :: rest =>
      let t := synthGo tf w h (some c) rest
      (pairFrames tf w h l c ++ t.1, t.2)

inductive SynthEvent where
  | outColor (c : RGBA)
  | closeOut
  | panicEvt
deriving DecidableEq

/-- internal/frame/lineargradient.go:155-192, LinearGradientTransition.Run:
per (left, right) pair emits `mix(left, right, float32(frame)/float32(Transition))`
for `frame < Transition` on the internal image channel; when ColorChannel is
closed and a receive fails, the loop body still calls `mix` on a nil pointer,
so the goroutine panics (the `close(lgt.imageChannel)` on line 191 is reached
only when `Transition = 0`). -/
def lgtRunTrace (tf : ℕ) : Option RGBA → List RGBA → List SynthEvent
  | none, [] => if tf = 0 then [.closeOut] else [.panicEvt]
  | none, [_] => if tf = 0 then [.closeOut] else [.panicEvt]
  | none, c1 :: c2 :: rest =>
      (List.range tf).map (fun f => .outColor (mix c1 c2 (ratioF32 f tf)))
        ++ lgtRunTrace tf (some c2) rest
  | some _, [] => if tf = 0 then [.closeOut] else [.panicEvt]
  | some l, c :: rest =>
      (List.range tf).map (fun f => .outColor (mix l c (ratioF32 f tf)))
        ++ lgtRunTrace tf (some c) rest

/-- internal/image/producer.go:118-159, Producer.makeImages: `for col := range
p.colorQueue` with state `left`, `right`.  An arriving color fills `left` if
empty (`continue`), else fills `right` if empty (`continue`); only when BOTH
are already set does the body run: it emits the `TransitionFrames` frames of
the (left, right) pair, then slides `left = right; right = nil` — the color
that arrived in that iteration is dropped (never assigned).  So a pair's
frames appear only when a third color arrives, and a pair completed right
before the queue closes emits nothing.  The loop exits cleanly on close but
the function returns WITHOUT closing p.ImageChannel — there is no close
statement in makeImages (nor anywhere else for ImageChannel), so the trace
never contains `closeOut`.  Emitted frames are recorded by their interpolated
color; the encoding step via p.ImageEncoder is outside the claims' scope. -/
def makeImagesTrace (tf : ℕ) : Option RGBA → Option RGBA → List RGBA → List SynthEvent
  | _, _, [] => []
  | none, r, c :: rest => makeImagesTrace tf (some c) r rest
  | some l, none, c :: rest => makeImagesTrace tf (some l) (some c) rest
  | some l, some r, _ :: rest =>
      (List.range tf).map (fun f => .outColor (mix l r (ratioF32 f tf)))
        ++ makeImagesTrace tf (some r) none rest



/-! ## StreamAdapter embeddings

Each Read is a loop; the loop is embedded with explicit fuel (structural
recursion).  The fuel passed by the entry points is provably sufficient for
every terminating execution, so fuel exhaustion (`spin`/`blocked`) occurs
exactly when the Go loop would block forever or livelock. -/

inductive CopyRes where
  | done (bytes : List ℕ) (n : ℕ)
  | oob
  | spin
deriving DecidableEq

/-- lineargradient.go:134-140, the pixel-copy loop of
LinearGradientTransition.Read: `for i, j := lgt.idx, cnt; i < imageSize && j < l;
i, j = i+4, j+4`, writing `out[j] = col.R`, `out[j+1] = col.B`,
`out[j+2] = col.B`, `out[j+3] = col.A` (sic: the source stores the B channel
in the G byte).  A write at an index ≥ l is a Go slice-bounds panic (`oob`). -/
def lgtCopy (c : RGBA) (imageSize l : ℕ) : ℕ → ℕ → ℕ → CopyRes
  | 0, _, _ => .spin
  | fuel + 1, i, j =>
    if i < imageSize ∧ j < l then
      if j + 3 < l then
        match lgtCopy c imageSize l fuel (i + 4) (j + 4) with
        | .done bs n => .done (c.r :: c.b :: c.b :: c.a :: bs) (n + 4)
        | .oob => .oob
        | .spin => .spin
      else .oob
    else .done [] 0

structure ColReadState where
  queue : List RGBA
  closed : Bool
  col : Option RGBA
  idx : ℕ
deriving DecidableEq

inductive ReadRes (σ : Type) where
  | ok (out : List ℕ) (eof : Bool) (st : σ)
  | panicked
  | blocked
deriving DecidableEq

/-- lineargradient.go:120-153, LinearGradientTransition.Read on a buffer of
length `l`: `for cnt < l` { receive a color if none is held; run the copy
loop; advance and reset `idx` }.  The image channel is `st.queue` plus
`st.closed`: a receive on the exhausted open channel blocks on the producer
(`blocked`); on the exhausted closed channel it yields (nil, false), sets
`end`, and the copy loop then dereferences the nil color — a runtime panic
whenever the image has at least one pixel (the `io.EOF` return on line 150 is
unreachable for non-empty images). -/
def lgtReadLoop (w h l : ℕ) : ℕ → ColReadState → Bool → List ℕ → ReadRes ColReadState
  | 0, _, _, _ => .blocked
  | fuel + 1, st, endf, out =>
    if l ≤ out.length then .ok out endf st
    else
      match st.col, st.queue with
      | none, [] =>
        if st.closed then
          if st.idx < w * h * 4 then .panicked
          else lgtReadLoop w h l fuel ⟨[], true, none, 0⟩ true out
        else .blocked
      | none, c :: rest =>
        match lgtCopy c (w * h * 4) l (w * h * 4 + 4) st.idx out.length with
        | .done bs n =>
          lgtReadLoop w h l fuel
            (if w * h * 4 ≤ st.idx + n then ⟨rest, st.closed, none, 0⟩
             else ⟨rest, st.closed, some c, st.idx + n⟩) endf (out ++ bs)
        | .oob => .panicked
        | .spin => .blocked
      | some c, _ =>
        match lgtCopy c (w * h * 4) l (w * h * 4 + 4) st.idx out.length with
        | .done bs n =>
          lgtReadLoop w h l fuel
            (if w * h * 4 ≤ st.idx + n then ⟨st.queue, st.closed, none, 0⟩
             else ⟨st.queue, st.closed, some c, st.idx + n⟩) endf (out ++ bs)
        | .oob => .panicked
        | .spin => .blocked

def lgtRead (w h l : ℕ) (st : ColReadState) : ReadRes ColReadState :=
  lgtReadLoop w h l (st.queue.length + l + 2) st false []

structure FFState where
  queue : List (List ℕ)
  closed : Bool
  image : Option (List ℕ)
  idx : ℕ
deriving DecidableEq

/-- cmd/main.go:45-73, ffmpegInput.Read on a buffer of length `l`: an infinite
`for` loop that receives a frame when none is held, copies
`min(l - cnt, len(image) - idx)` bytes with Go `copy`, resets the held frame
once exhausted, and breaks only when `cnt ≥ l`.  When the channel is closed
and drained, the receive yields (nil, false) and sets `end`, but the copy then
moves 0 bytes and `cnt` never advances: for any `cnt < l` the loop spins
forever re-receiving from the closed channel, so the `io.EOF` return on line
71 is unreachable (`blocked` for every fuel). -/
def ffmpegReadLoop (l : ℕ) : ℕ → FFState → Bool → List ℕ → ReadRes FFState
  | 0, _, _, _ => .blocked
  | fuel + 1, st, endf, out =>
    match st.image, st.queue with
    | none, [] =>
      if st.closed then
        if l ≤ out.length then .ok out true ⟨[], true, none, 0⟩
        else ffmpegReadLoop l fuel ⟨[], true, none, 0⟩ true out
      else .blocked
    | none, img :: rest =>
      let n := min (l - out.length) (img.length - st.idx)
      let out2 := out ++ ((img.drop st.idx).take n)
      let st2 : FFState :=
        if img.length ≤ st.idx + n then ⟨rest, st.closed, none, 0⟩
        else ⟨rest, st.closed, some img, st.idx + n⟩
      if l ≤ out2.length then .ok out2 endf st2
      else ffmpegReadLoop l fuel st2 endf out2
    | some img, _ =>
      let n := min (l - out.length) (img.length - st.idx)
      let out2 := out ++ ((img.drop st.idx).take n)
      let st2 : FFState :=
        if img.length ≤ st.idx + n then ⟨st.queue, st.closed, none, 0⟩
        else ⟨st.queue, st.closed, some img, st.idx + n⟩
      if l ≤ out2.length then .ok out2 endf st2
      else ffmpegReadLoop l fuel st2 endf out2

def ffmpegRead (l : ℕ) (st : FFState) : ReadRes FFState :=
  ffmpegReadLoop l (st.queue.length + l + 2) st false []

/-- src/unnamed/part_000:99-105, the pixel-expansion loop of that variant's
ffmpegInput.Read: `for i, j := fi.idx, cnt; i < fi.ImageSize*4 && j < l;
i, j = i+1, j+4` — the pixel counter `i` advances by ONE per 4 output bytes
while being bounded by `ImageSize*4`, so a single held color can emit up to
`ImageSize*4` pixels, i.e. `ImageSize*16` bytes.  Channels are written in
R,G,B,A order (lines 100-103). -/
def p0Copy (c : RGBA) (imageSize4 l : ℕ) : ℕ → ℕ → ℕ → CopyRes
  | 0, _, _ => .spin
  | fuel + 1, i, j =>
    if i < imageSize4 ∧ j < l then
      if j + 3 < l then
        match p0Copy c imageSize4 l fuel (i + 1) (j + 4) with
        | .done bs n => .done (c.r :: c.g :: c.b :: c.a :: bs) (n + 4)
        | .oob => .oob
        | .spin => .spin
      else .oob
    else .done [] 0

/-- src/unnamed/part_000:86-121, ffmpegInput.Read of the color-channel
variant: an infinite `for` loop (break only at `cnt >= l` after the copy),
expanding one held color through `p0Copy` and advancing `fi.idx` by the BYTE
count `n`, resetting when `idx ≥ ImageSize*4`. -/
def p0ReadLoop (imageSize l : ℕ) : ℕ → ColReadState → Bool → List ℕ → ReadRes ColReadState
  | 0, _, _, _ => .blocked
  | fuel + 1, st, endf, out =>
    match st.col, st.queue with
    | none, [] =>
      if st.closed then
        if st.idx < imageSize * 4 ∧ out.length < l then .panicked
        else
          if l ≤ out.length then
            .ok out true ⟨[], true, none, if imageSize * 4 ≤ st.idx then 0 else st.idx⟩
          else
            p0ReadLoop imageSize l fuel
              ⟨[], true, none, if imageSize * 4 ≤ st.idx then 0 else st.idx⟩ true out
      else .blocked
    | none, c :: rest =>
      match p0Copy c (imageSize * 4) l (imageSize * 4 + l + 4) st.idx out.length with
      | .done bs n =>
        let st2 : ColReadState :=
          if imageSize * 4 ≤ st.idx + n then ⟨rest, st.closed, none, 0⟩
          else ⟨rest, st.closed, some c, st.idx + n⟩
        if l ≤ (out ++ bs).length then .ok (out ++ bs) endf st2
        else p0ReadLoop imageSize l fuel st2 endf (out ++ bs)
      | .oob => .panicked
      | .spin => .blocked
    | some c, _ =>
      match p0Copy c (imageSize * 4) l (imageSize * 4 + l + 4) st.idx out.length with
      | .done bs n =>
        let st2 : ColReadState :=
          if imageSize * 4 ≤ st.idx + n then ⟨st.queue, st.closed, none, 0⟩
          else ⟨st.queue, st.closed, some c, st.idx + n⟩
        if l ≤ (out ++ bs).length then .ok (out ++ bs) endf st2
        else p0ReadLoop imageSize l fuel st2 endf (out ++ bs)
      | .oob => .panicked
      | .spin => .blocked

def p0Read (imageSize l : ℕ) (st : ColReadState) : ReadRes ColReadState :=
  p0ReadLoop imageSize l (st.queue.length + l + 2) st false []



/-! ## PaletteSource embeddings -/

/-- A colormind palette: 5 colors at indices 0..4 (Go `Palette [5]*color.RGBA`,
read as `pal[i]`; a total function keeps the indexing simple). -/
def PaletteGo := ℕ → RGBA

/-- The n-th palette the fetch loop receives, with the remote API abstracted
as a function `api` from the optional seed to the returned palette
(cmd/main.go:157-191, producer.go:85-116: the first call passes
`previous = nil`; every later call passes the previous palette's colors 3 and
4, set by `previous[0] = pal[3]; previous[1] = pal[4]`). -/
def palSeq (api : Option (RGBA × RGBA) → PaletteGo) : ℕ → PaletteGo
  | 0 => api none
  | n + 1 => api (some (palSeq api n 3, palSeq api n 4))

/-- The colors enqueued on the color channel by the first `n` successful
fetches: `start = 0` on the first iteration (all of pal[0..4]), `start = 2`
afterwards (pal[2..4] only) — producer.go:99-105, cmd/main.go:169-179. -/
def palEmitted (api : Option (RGBA × RGBA) → PaletteGo) : ℕ → List RGBA
  | 0 => []
  | n + 1 =>
    palEmitted api n ++
      (if n = 0 then
        [palSeq api 0 0, palSeq api 0 1, palSeq api 0 2, palSeq api 0 3, palSeq api 0 4]
      else [palSeq api n 2, palSeq api n 3, palSeq api n 4])

/-- cmd/main.go:170-176 (identical in src/unnamed/part_000:217-223): the inner
enqueue loop `for i := start; i < len(pal); i++ { select { case colorChannel
<- pal[i]: case <-ctx.Done(): stop = true } }`, made deterministic against an
execution schedule.  Select steps are numbered globally by `t`; cancellation
is observable from step `cancelAt` on; once observable, `sched t` is the case
the Go runtime picks among the two ready ones (`true` = the send).  Before
`cancelAt` only the send is ready (the consumer eventually drains a full
queue).  Returns (colors sent, stop flag, next step number).  Note the loop
body has no break: every remaining index is visited even after `stop` is
set. -/
def enqLoop (pal : PaletteGo) (cancelAt : ℕ) (sched : ℕ → Bool) :
    ℕ → ℕ → ℕ → List RGBA × Bool × ℕ
  | 0, _, t => ([], false, t)
  | k + 1, i, t =>
    let rest := enqLoop pal cancelAt sched k (i + 1) (t + 1)
    if t < cancelAt ∨ sched t then (pal i :: rest.1, rest.2.1, rest.2.2)
    else (rest.1, true, rest.2.2)

inductive PalEvent where
  | emit (c : RGBA)
  | closeColorQueue
deriving DecidableEq

/-- cmd/main.go:157-191, the palette-fetch goroutine: repeatedly fetch
(`palSeq`), run the enqueue loop, use `start = 2` after the first success, and
`break` only after a palette during whose enqueue cancellation was observed
(`if stop { break }` runs after the whole palette); then `close(colorChannel)`
— exactly once, as the last event.  `fuel` bounds how many fetches are
unrolled: `none` means cancellation was not observed within `fuel` fetches.
Fetch errors push onto the error channel and `continue` without touching
`start`/`previous`; they contribute no events, so the model takes every fetch
successful. -/
def fetchLoopGo (api : Option (RGBA × RGBA) → PaletteGo) (cancelAt : ℕ)
    (sched : ℕ → Bool) : ℕ → ℕ → ℕ → Option (List PalEvent)
  | 0, _, _ => none
  | fuel + 1, n, t =>
    let r := enqLoop (palSeq api n) cancelAt sched (5 - (if n = 0 then 0 else 2))
      (if n = 0 then 0 else 2) t
    if r.2.1 then some (r.1.map .emit ++ [.closeColorQueue])
    else (fetchLoopGo api cancelAt sched fuel (n + 1) r.2.2).map
      (fun tr => r.1.map .emit ++ tr)

/-! ## colormind response parsing -/

/-- internal/colormind/colormind.go:32-42, Color.Unmarshal: on success the
3-element JSON array becomes R, G, B and `c.A = 255` unconditionally. -/
def colorUnmarshal (values : ℕ × ℕ × ℕ) : RGBA :=
  ⟨values.1, values.2.1, values.2.2, 255⟩

/-- internal/colormind/colormind.go:51-65, Palette.UnmarshalJSON: on success
the 5×3 array becomes five colors, each built with alpha byte 255. -/
def paletteUnmarshalJSON (values : Fin 5 → ℕ × ℕ × ℕ) : Fin 5 → RGBA :=
  fun i => ⟨(values i).1, (values i).2.1, (values i).2.2, 255⟩

/-! ## Byte-stream view of an ffmpegInput state (for the chunking claims) -/

/-- The byte stream still readable from an ffmpegInput state: the unread
suffix of the held frame followed by the queued frames. -/
def ffFlat (st : FFState) : List ℕ :=
  (match st.image with
   | some img => img.drop st.idx
   | none => []) ++ st.queue.flatten

/-- Repeated Read calls with the given buffer sizes, concatenating the
returned byte slices in order. -/
def readChunks : List ℕ → FFState → Option (List ℕ × FFState)
  | [], st => some ([], st)
  | l :: ls, st =>
    match ffmpegRead l st with
    | .ok out _ st2 => (readChunks ls st2).map (fun r => (out ++ r.1, r.2))
    | _ => none



lemma take_append_of_le {α : Type} (n : ℕ) (l1 l2 : List α) (h : n ≤ l1.length) :
    (l1 ++ l2).take n = l1.take n := by
  rw [List.take_append_eq_append_take, show n - l1.length = 0 by omega]
  simp

lemma drop_append_of_le {α : Type} (n : ℕ) (l1 l2 : List α) (h : n ≤ l1.length) :
    (l1 ++ l2).drop n = l1.drop n ++ l2 := by
  rw [List.drop_append_eq_append_drop, show n - l1.length = 0 by omega]
  simp

lemma take_append_of_ge {α : Type} (n : ℕ) (l1 l2 : List α) (h : l1.length ≤ n) :
    (l1 ++ l2).take n = l1 ++ l2.take (n - l1.length) := by
  rw [List.take_append_eq_append_take, List.take_of_length_le h]

lemma drop_append_of_ge {α : Type} (n : ℕ) (l1 l2 : List α) (h : l1.length ≤ n) :
    (l1 ++ l2).drop n = l2.drop (n - l1.length) := by
  rw [List.drop_append_eq_append_drop, List.drop_eq_nil_of_le h]
  simp

/-- Correctness of the main.go byte-chunking loop while data is available:
with the held-frame cursor invariants, a Read for `l` bytes returns exactly
the next `l - cnt` bytes of the flattened stream and advances the stream by
that amount, preserving the invariants (fuel bound: each loop iteration
either consumes a queued frame or makes byte progress). -/
lemma ffmpegReadLoop_spec : ∀ (fuel : ℕ) (st : FFState) (endf : Bool) (out : List ℕ) (l : ℕ),
    (st.image = none → st.idx = 0) →
    (∀ img, st.image = some img → st.idx < img.length) →
    l ≤ out.length + (ffFlat st).length →
    out.length < l →
    st.queue.length + (l - out.length) ≤ fuel →
    ∃ st2, ffmpegReadLoop l fuel st endf out
        = .ok (out ++ (ffFlat st).take (l - out.length)) endf st2
      ∧ ffFlat st2 = (ffFlat st).drop (l - out.length)
      ∧ (st2.image = none → st2.idx = 0)
      ∧ (∀ img, st2.image = some img → st2.idx < img.length) := by
  intro fuel
  induction fuel with
  | zero => intro st endf out l h0 hs h1 h2 h3; omega
  | succ fuel ih =>
    intro st endf out l h0 hs h1 h2 h3
    obtain ⟨q, closed, image, idx⟩ := st
    cases image with
    | none =>
      have hidx : idx = 0 := h0 rfl
      subst hidx
      cases q with
      | nil =>
        exfalso
        simp [ffFlat] at h1
        omega
      | cons img rest =>
        have hflat : ffFlat ⟨img :: rest, closed, none, 0⟩ = img ++ rest.flatten := by
          simp [ffFlat]
        have h1' : l ≤ out.length + (img.length + rest.flatten.length) := by
          rw [hflat, List.length_append] at h1
          omega
        have h3' : rest.length + (l - out.length) ≤ fuel := by
          simp only [List.length_cons] at h3
          omega
        simp only [ffmpegReadLoop, List.drop_zero, Nat.sub_zero, Nat.zero_add]
        by_cases hfill : l ≤ (out ++ img.take (min (l - out.length) img.length)).length
        · rw [if_pos hfill]
          rw [List.length_append, List.length_take] at hfill
          have hn : min (l - out.length) img.length = l - out.length := by omega
          rw [hn] at hfill ⊢
          have hle : l - out.length ≤ img.length := by omega
          have htake : out ++ img.take (l - out.length)
              = out ++ (ffFlat ⟨img :: rest, closed, none, 0⟩).take (l - out.length) := by
            rw [hflat, take_append_of_le _ _ _ hle]
          by_cases hend : img.length ≤ l - out.length
          · rw [if_pos hend]
            refine ⟨⟨rest, closed, none, 0⟩, by rw [htake], ?_, fun _ => rfl,
              fun i h => absurd h (by simp)⟩
            rw [hflat, drop_append_of_ge _ _ _ hend]
            simp only [ffFlat, List.nil_append]
            rw [show l - out.length - img.length = 0 by omega, List.drop_zero]
          · rw [if_neg hend]
            refine ⟨⟨rest, closed, some img, l - out.length⟩, by rw [htake], ?_, ?_, ?_⟩
            · rw [hflat, drop_append_of_le _ _ _ hle]
              simp [ffFlat]
            · intro h
              exact absurd h (by simp)
            · intro i h
              have hii : img = i := by simpa using h
              subst hii
              show l - out.length < img.length
              omega
        · rw [if_neg hfill]
          rw [List.length_append, List.length_take] at hfill
          have hn : min (l - out.length) img.length = img.length := by omega
          rw [hn] at hfill ⊢
          rw [if_pos (le_refl img.length), List.take_length]
          obtain ⟨st2, heq, hfl, hi1, hi2⟩ :=
            ih ⟨rest, closed, none, 0⟩ endf (out ++ img) l (fun _ => rfl)
              (fun i h => absurd h (by simp))
              (by
                simp only [ffFlat, List.nil_append, List.length_append]
                omega)
              (by rw [List.length_append]; omega)
              (by
                simp only [List.length_append]
                omega)
          have harr : (out ++ img)
              ++ (ffFlat ⟨rest, closed, none, 0⟩).take (l - (out ++ img).length)
              = out ++ (ffFlat ⟨img :: rest, closed, none, 0⟩).take (l - out.length) := by
            rw [hflat, take_append_of_ge _ _ _ (by omega : img.length ≤ l - out.length)]
            simp only [ffFlat, List.nil_append, List.length_append, List.append_assoc]
            congr 3
            omega
          have hdrp : (ffFlat ⟨rest, closed, none, 0⟩).drop (l - (out ++ img).length)
              = (ffFlat ⟨img :: rest, closed, none, 0⟩).drop (l - out.length) := by
            rw [hflat, drop_append_of_ge _ _ _ (by omega : img.length ≤ l - out.length)]
            simp only [ffFlat, List.nil_append, List.length_append]
            congr 1
            omega
          exact ⟨st2, by rw [heq, harr], by rw [hfl, hdrp], hi1, hi2⟩
    | some img =>
      have hcur : idx < img.length := hs img rfl
      have hflat : ffFlat ⟨q, closed, some img, idx⟩ = img.drop idx ++ q.flatten := by
        simp [ffFlat]
      have hcl : (img.drop idx).length = img.length - idx := by simp
      have h1' : l ≤ out.length + ((img.length - idx) + q.flatten.length) := by
        rw [hflat, List.length_append, hcl] at h1
        omega
      have h3' : q.length + (l - out.length) ≤ fuel + 1 := by simpa using h3
      simp only [ffmpegReadLoop]
      by_cases hfill :
          l ≤ (out ++ (img.drop idx).take (min (l - out.length) (img.length - idx))).length
      · rw [if_pos hfill]
        rw [List.length_append, List.length_take, hcl] at hfill
        have hn : min (l - out.length) (img.length - idx) = l - out.length := by omega
        rw [hn] at hfill ⊢
        have hle : l - out.length ≤ img.length - idx := by omega
        have htake : out ++ (img.drop idx).take (l - out.length)
            = out ++ (ffFlat ⟨q, closed, some img, idx⟩).take (l - out.length) := by
          rw [hflat, take_append_of_le _ _ _ (by omega)]
        by_cases hend : img.length ≤ idx + (l - out.length)
        · rw [if_pos hend]
          refine ⟨⟨q, closed, none, 0⟩, by rw [htake], ?_, fun _ => rfl,
            fun i h => absurd h (by simp)⟩
          rw [hflat, drop_append_of_ge _ _ _ (by omega)]
          simp only [ffFlat, List.nil_append]
          rw [show l - out.length - (img.drop idx).length = 0 by omega, List.drop_zero]
        · rw [if_neg hend]
          refine ⟨⟨q, closed, some img, idx + (l - out.length)⟩, by rw [htake], ?_, ?_, ?_⟩
          · rw [hflat, drop_append_of_le _ _ _ (by omega)]
            simp only [ffFlat]
            rw [List.drop_drop]
          · intro h
            exact absurd h (by simp)
          · intro i h
            have hii : img = i := by simpa using h
            subst hii
            show idx + (l - out.length) < img.length
            omega
      · rw [if_neg hfill]
        rw [List.length_append, List.length_take, hcl] at hfill
        have hn : min (l - out.length) (img.length - idx) = img.length - idx := by omega
        rw [hn] at hfill ⊢
        rw [if_pos (by omega : img.length ≤ idx + (img.length - idx))]
        rw [List.take_of_length_le (by omega : (img.drop idx).length ≤ img.length - idx)]
        obtain ⟨st2, heq, hfl, hi1, hi2⟩ :=
          ih ⟨q, closed, none, 0⟩ endf (out ++ img.drop idx) l (fun _ => rfl)
            (fun i h => absurd h (by simp))
            (by
              simp only [ffFlat, List.nil_append, List.length_append, hcl]
              omega)
            (by rw [List.length_append, hcl]; omega)
            (by
              show q.length + (l - (out ++ img.drop idx).length) ≤ fuel
              rw [List.length_append, hcl]
              omega)
        have harr : (out ++ img.drop idx)
            ++ (ffFlat ⟨q, closed, none, 0⟩).take (l - (out ++ img.drop idx).length)
            = out ++ (ffFlat ⟨q, closed, some img, idx⟩).take (l - out.length) := by
          rw [hflat, take_append_of_ge _ _ _ (by rw [hcl]; omega)]
          simp only [ffFlat, List.nil_append, List.length_append, List.append_assoc, hcl]
          congr 3
          omega
        have hdrp : (ffFlat ⟨q, closed, none, 0⟩).drop (l - (out ++ img.drop idx).length)
            = (ffFlat ⟨q, closed, some img, idx⟩).drop (l - out.length) := by
          rw [hflat, drop_append_of_ge _ _ _ (by rw [hcl]; omega)]
          simp only [ffFlat, List.nil_append, List.length_append, hcl]
          congr 1
          omega
        exact ⟨st2, by rw [heq, harr], by rw [hfl, hdrp], hi1, hi2⟩


/-! ### Exactness and range lemmas for the program's float32 values -/

lemma f32ofNat_val (n : ℕ) (h : n ≤ 2 ^ 24) : (f32ofNat n).val = (n : ℚ) := by
  unfold f32ofNat Frac.ofNat
  by_cases h0 : n = 0
  · subst h0
    rw [fl32_val_zeroNum _ (by norm_num)]
    simp [Frac.val]
  · have hn : (0 : Int) < (n : Int) := by exact_mod_cast Nat.pos_of_ne_zero h0
    rw [fl32_val_pos ⟨(n : Int), 1⟩ hn (by norm_num)]
    have hval : (Frac.mk (n : Int) 1).val = (n : ℚ) := by simp [Frac.val]
    rw [hval, fl32Q_natCast n (Nat.pos_of_ne_zero h0) h]

lemma Frac.num_pos_of_val_pos (x : Frac) (hd : 0 < x.den) (h : 0 < x.val) : 0 < x.num := by
  by_contra hc
  have h1 : (x.num : ℚ) ≤ 0 := by exact_mod_cast not_lt.mp hc
  have h2 : (0 : ℚ) < (x.den : ℚ) := by exact_mod_cast hd
  have h3 : x.val ≤ 0 := div_nonpos_of_nonpos_of_nonneg h1 (le_of_lt h2)
  linarith

lemma Frac.num_eq_zero_of_val_zero (x : Frac) (hd : 0 < x.den) (h : x.val = 0) : x.num = 0 := by
  unfold Frac.val at h
  rcases div_eq_zero_iff.mp h with h1 | h1
  · exact_mod_cast h1
  · exfalso
    have : (0 : ℚ) < (x.den : ℚ) := by exact_mod_cast hd
    rw [h1] at this
    exact lt_irrefl 0 this

/-- Rounding a fraction whose value is a machine integer at most `2^24`
returns that value exactly. -/
lemma fl32_val_of_exact (x : Frac) (hd : 0 < x.den) (n : ℕ)
    (hx : x.val = (n : ℚ)) (hn : n ≤ 2 ^ 24) : (fl32 x).val = (n : ℚ) := by
  by_cases h0 : x.num = 0
  · have hv : x.val = 0 := by
      unfold Frac.val
      rw [h0]
      simp
    rw [hv] at hx
    rw [fl32_val_zeroNum x h0]
    rw [show (Frac.mk 0 1).val = 0 from by simp [Frac.val]]
    exact hx
  · have hpos : 0 < x.num := by
      rcases lt_or_gt_of_ne h0 with hlt | hgt
      · exfalso
        have hvneg : x.val < 0 := by
          unfold Frac.val
          apply div_neg_of_neg_of_pos
          · exact_mod_cast hlt
          · exact_mod_cast hd
        rw [hx] at hvneg
        have : (0 : ℚ) ≤ (n : ℚ) := by positivity
        linarith
      · exact hgt
    rw [fl32_val_pos x hpos hd, hx]
    have hnpos : 0 < n := by
      by_contra hc
      have hn0 : n = 0 := by omega
      subst hn0
      have : x.val = 0 := by rw [hx]; simp
      exact h0 (Frac.num_eq_zero_of_val_zero x hd this)
    exact fl32Q_natCast n hnpos hn

lemma fl32_of_num_zero_eq (x : Frac) (h : x.num = 0) : fl32 x = ⟨0, 1⟩ :=
  fl32_val_zeroNum x h

lemma ratioF32_zero (tf : ℕ) : ratioF32 0 tf = ⟨0, 1⟩ := by
  unfold ratioF32 fdiv32
  apply fl32_of_num_zero_eq
  have h0 : f32ofNat 0 = ⟨0, 1⟩ := rfl
  rw [h0]
  unfold Frac.div
  by_cases h : 0 ≤ (f32ofNat tf).num
  · rw [if_pos h]
    simp
  · rw [if_neg h]
    simp

/-- The sampled ratio is well defined and lies in [0, 1) whenever
`frame < transitionFrames ≤ 2^24`: both conversions are exact and the rounded
quotient of `frame / tf ≤ 1 - 2⁻²⁴` stays below one. -/
lemma ratioF32_bounds (frame tf : ℕ) (hf : frame < tf) (htf : tf ≤ 2 ^ 24) :
    0 ≤ (ratioF32 frame tf).val ∧ (ratioF32 frame tf).val < 1 := by
  have htfpos : 0 < tf := by omega
  by_cases h0 : frame = 0
  · subst h0
    rw [ratioF32_zero]
    norm_num [Frac.val]
  · have hfpos : 0 < frame := Nat.pos_of_ne_zero h0
    have hfv : (f32ofNat frame).val = (frame : ℚ) := f32ofNat_val frame (by omega)
    have htv : (f32ofNat tf).val = (tf : ℚ) := f32ofNat_val tf htf
    have hfden : 0 < (f32ofNat frame).den := fl32_den_pos _
    have htden : 0 < (f32ofNat tf).den := fl32_den_pos _
    have hfnum : 0 < (f32ofNat frame).num :=
      Frac.num_pos_of_val_pos _ hfden (by rw [hfv]; exact_mod_cast hfpos)
    have htnum : 0 < (f32ofNat tf).num :=
      Frac.num_pos_of_val_pos _ htden (by rw [htv]; exact_mod_cast htfpos)
    set D := (f32ofNat frame).div (f32ofNat tf) with hD
    have hDval : D.val = (frame : ℚ) / (tf : ℚ) := by
      rw [hD, Frac.val_div, hfv, htv]
    have hDnum : 0 < D.num := by
      rw [hD]
      unfold Frac.div
      rw [if_pos (le_of_lt htnum)]
      exact mul_pos hfnum htden
    have hDden : 0 < D.den := by
      rw [hD]
      unfold Frac.div
      rw [if_pos (le_of_lt htnum)]
      exact mul_pos hfden htnum
    have hq0 : (0 : ℚ) < (frame : ℚ) / (tf : ℚ) := by
      apply div_pos
      · exact_mod_cast hfpos
      · exact_mod_cast htfpos
    unfold ratioF32 fdiv32
    rw [← hD, fl32_val_pos D hDnum hDden, hDval]
    have htQ : (0 : ℚ) < (tf : ℚ) := by exact_mod_cast htfpos
    have hfr : (frame : ℚ) / (tf : ℚ) ≤ 1 - 2 ^ (-24 : Int) := by
      rw [div_le_iff₀ htQ]
      have h24 : (2 : ℚ) ^ (-24 : Int) * (2 : ℚ) ^ (24 : Int) = 1 := by
        rw [← zpow_add₀ (by norm_num : (2:ℚ) ≠ 0)]
        norm_num
      have htle : (tf : ℚ) ≤ (2 : ℚ) ^ (24 : Int) := by
        have : ((tf : ℕ) : ℚ) ≤ ((2 ^ 24 : ℕ) : ℚ) := by exact_mod_cast htf
        calc (tf : ℚ) ≤ ((2 ^ 24 : ℕ) : ℚ) := this
          _ = (2 : ℚ) ^ (24 : Int) := by norm_num
      have hfle : (frame : ℚ) ≤ (tf : ℚ) - 1 := by
        have : ((frame : ℕ) : ℚ) + 1 ≤ ((tf : ℕ) : ℚ) := by exact_mod_cast hf
        linarith
      have hmul : (2 : ℚ) ^ (-24 : Int) * (tf : ℚ) ≤ 1 := by
        have hp : (0 : ℚ) < (2 : ℚ) ^ (-24 : Int) := two_zpow_pos _
        calc (2 : ℚ) ^ (-24 : Int) * (tf : ℚ) ≤ 2 ^ (-24 : Int) * 2 ^ (24 : Int) :=
              mul_le_mul_of_nonneg_left htle (le_of_lt hp)
          _ = 1 := h24
      nlinarith
    constructor
    · exact fl32Q_nonneg _ (le_of_lt hq0)
    · exact fl32Q_lt_one _ hq0 hfr



/-- At ratio zero the interpolation reproduces the left channel exactly:
`1.0 - 0 = 1` exactly, `float32(a) * 1` re-rounds to `a`, the right product is
exactly `0`, and the final sum re-rounds to `a`, which truncates to `a`. -/
lemma mixChan_zero (a b : ℕ) (ha : a ≤ 255) : mixChan a b ⟨0, 1⟩ = a := by
  unfold mixChan
  have hsub : fsub32 ⟨1, 1⟩ ⟨0, 1⟩ = ⟨2 ^ 23, 2 ^ 23⟩ := by decide
  rw [hsub]
  have hzmul : fmul32 (f32ofNat b) ⟨0, 1⟩ = ⟨0, 1⟩ := by
    apply fl32_of_num_zero_eq
    show (f32ofNat b).num * 0 = 0
    ring
  rw [hzmul]
  have ha24 : a ≤ 2 ^ 24 := by omega
  have hav : (f32ofNat a).val = (a : ℚ) := f32ofNat_val a ha24
  have haden : 0 < (f32ofNat a).den := fl32_den_pos _
  have hPval : ((f32ofNat a).mul ⟨2 ^ 23, 2 ^ 23⟩).val = (a : ℚ) := by
    rw [Frac.val_mul, hav]
    have h1 : (Frac.mk (2 ^ 23) (2 ^ 23)).val = 1 := by norm_num [Frac.val]
    rw [h1, mul_one]
  have hPden : 0 < ((f32ofNat a).mul ⟨2 ^ 23, 2 ^ 23⟩).den := by
    show 0 < (f32ofNat a).den * 2 ^ 23
    positivity
  have hQval : (fmul32 (f32ofNat a) ⟨2 ^ 23, 2 ^ 23⟩).val = (a : ℚ) :=
    fl32_val_of_exact _ hPden a hPval ha24
  have hQden : 0 < (fmul32 (f32ofNat a) ⟨2 ^ 23, 2 ^ 23⟩).den := fl32_den_pos _
  have hSval : ((fmul32 (f32ofNat a) ⟨2 ^ 23, 2 ^ 23⟩).add ⟨0, 1⟩).val = (a : ℚ) := by
    rw [Frac.val_add _ _ (by omega) (by norm_num), hQval]
    have h1 : (Frac.mk 0 1).val = 0 := by norm_num [Frac.val]
    rw [h1, add_zero]
  have hSden : 0 < ((fmul32 (f32ofNat a) ⟨2 ^ 23, 2 ^ 23⟩).add ⟨0, 1⟩).den := by
    show 0 < (fmul32 (f32ofNat a) ⟨2 ^ 23, 2 ^ 23⟩).den * 1
    omega
  have hfin : (fadd32 (fmul32 (f32ofNat a) ⟨2 ^ 23, 2 ^ 23⟩) ⟨0, 1⟩).val = (a : ℚ) :=
    fl32_val_of_exact _ hSden a hSval ha24
  exact truncU8_val_natCast _ (fl32_den_pos _) a hfin

/-- At the sampled ratio of frame 0 the interpolated color is exactly the
left color (all four channels at most 255, as Go uint8 values are). -/
lemma mix_zero (c1 c2 : RGBA) (tf : ℕ) (h1 : c1.r ≤ 255) (h2 : c1.g ≤ 255)
    (h3 : c1.b ≤ 255) (h4 : c1.a ≤ 255) : mix c1 c2 (ratioF32 0 tf) = c1 := by
  rw [ratioF32_zero]
  unfold mix
  rw [mixChan_zero _ _ h1, mixChan_zero _ _ h2, mixChan_zero _ _ h3, mixChan_zero _ _ h4]



/-! ### Frame-count and byte-count lemmas for the synthesis loop -/

lemma flatten_replicate_length {α : Type} (n : ℕ) (l : List α) :
    (List.replicate n l).flatten.length = n * l.length := by
  induction n with
  | zero => simp
  | succ n ih => simp [List.replicate_succ, ih, Nat.succ_mul, Nat.add_comm]

lemma mkImage_length (w h : ℕ) (c : RGBA) : (mkImage w h c).length = w * h * 4 := by
  unfold mkImage
  rw [flatten_replicate_length]
  simp

lemma pairFrames_length (tf w h : ℕ) (a b : RGBA) : (pairFrames tf w h a b).length = tf := by
  simp [pairFrames]

lemma sum_map_const_range (n c : ℕ) : ((List.range n).map (fun _ => c)).sum = n * c := by
  induction n with
  | zero => simp
  | succ n ih =>
    rw [List.range_succ, List.map_append, List.sum_append, ih]
    simp [Nat.succ_mul]

lemma pairFrames_flatten_length (tf w h : ℕ) (a b : RGBA) :
    (pairFrames tf w h a b).flatten.length = tf * (w * h * 4) := by
  unfold pairFrames
  rw [List.length_flatten]
  have h1 : ((List.range tf).map (fun frame => mkImage w h (mix a b (ratioF32 frame tf)))).map
      List.length = (List.range tf).map (fun _ => w * h * 4) := by
    rw [List.map_map]
    apply List.map_congr_left
    intro x _
    exact mkImage_length w h _
  rw [h1]
  exact sum_map_const_range tf (w * h * 4)

lemma synthGo_some_bytes (tf w h : ℕ) :
    ∀ (cols : List RGBA) (l : RGBA),
      (synthGo tf w h (some l) cols).1.flatten.length = cols.length * (tf * (w * h * 4)) := by
  intro cols
  induction cols with
  | nil => intro l; simp [synthGo]
  | cons c rest ih =>
    intro l
    show ((pairFrames tf w h l c ++ (synthGo tf w h (some c) rest).1).flatten.length)
      = (c :: rest).length * (tf * (w * h * 4))
    rw [List.flatten_append, List.length_append, pairFrames_flatten_length, ih]
    simp [Nat.succ_mul, Nat.add_comm]

/-- cmd/main.go's synthesis goroutine emits exactly
`(number of colors - 1) * transitionFrames` frames of `w*h*4` bytes each:
`N * transitionFrames * width * height * 4` bytes for `N` completed pairs. -/
lemma synthGo_total_bytes (tf w h : ℕ) (cols : List RGBA) :
    (synthGo tf w h none cols).1.flatten.length = (cols.length - 1) * (tf * (w * h * 4)) := by
  match cols with
  | [] => simp [synthGo]
  | [c] => simp [synthGo]
  | c1 :: c2 :: rest =>
    show ((pairFrames tf w h c1 c2 ++ (synthGo tf w h (some c2) rest).1).flatten.length)
      = ((c1 :: c2 :: rest).length - 1) * (tf * (w * h * 4))
    rw [List.flatten_append, List.length_append, pairFrames_flatten_length,
      synthGo_some_bytes]
    simp [Nat.succ_mul, Nat.add_comm]

/-- makeImages never closes its output queue: no `closeOut` in any trace,
from any left/right state. -/
lemma makeImagesTrace_no_close (tf : ℕ) :
    ∀ (cols : List RGBA) (lopt ropt : Option RGBA),
      SynthEvent.closeOut ∉ makeImagesTrace tf lopt ropt cols := by
  intro cols
  induction cols with
  | nil => intro lopt ropt; cases lopt <;> cases ropt <;> simp [makeImagesTrace]
  | cons c rest ih =>
    intro lopt ropt
    cases lopt with
    | none =>
      show SynthEvent.closeOut ∉ makeImagesTrace tf (some c) ropt rest
      exact ih (some c) ropt
    | some l =>
      cases ropt with
      | none =>
        show SynthEvent.closeOut ∉ makeImagesTrace tf (some l) (some c) rest
        exact ih (some l) (some c)
      | some r =>
        show SynthEvent.closeOut ∉
          (List.range tf).map (fun f => SynthEvent.outColor (mix l r (ratioF32 f tf)))
            ++ makeImagesTrace tf (some r) none rest
        rw [List.mem_append]
        rintro (hmem | hmem)
        · obtain ⟨x, _, hx⟩ := List.mem_map.mp hmem
          exact SynthEvent.noConfusion hx
        · exact ih (some r) none hmem



/-- The livelock of ffmpegInput.Read on a closed, drained channel: when fewer
bytes than requested have been accumulated, no amount of fuel finishes the
loop (the Go code re-receives from the closed channel forever). -/
lemma ffmpegReadLoop_spin (l : ℕ) :
    ∀ (fuel : ℕ) (endf : Bool) (out : List ℕ), out.length < l →
      ffmpegReadLoop l fuel ⟨[], true, none, 0⟩ endf out = .blocked := by
  intro fuel
  induction fuel with
  | zero => intro endf out h; rfl
  | succ fuel ih =>
    intro endf out h
    show (if l ≤ out.length then ReadRes.ok out true ⟨[], true, none, 0⟩
          else ffmpegReadLoop l fuel ⟨[], true, none, 0⟩ true out) = .blocked
    rw [if_neg (by omega)]
    exact ih true out h

/-- Chunked reads: any sequence of positive buffer sizes whose total is
available consumes exactly the prefix of the byte stream, in order. -/
lemma readChunks_spec : ∀ (ns : List ℕ) (st : FFState),
    (st.image = none → st.idx = 0) →
    (∀ img, st.image = some img → st.idx < img.length) →
    (∀ n ∈ ns, 0 < n) →
    ns.sum ≤ (ffFlat st).length →
    ∃ st2, readChunks ns st = some ((ffFlat st).take ns.sum, st2)
      ∧ ffFlat st2 = (ffFlat st).drop ns.sum
      ∧ (st2.image = none → st2.idx = 0)
      ∧ (∀ img, st2.image = some img → st2.idx < img.length) := by
  intro ns
  induction ns with
  | nil =>
    intro st h0 hs hpos hsum
    exact ⟨st, by simp [readChunks], by simp, h0, hs⟩
  | cons n ns ih =>
    intro st h0 hs hpos hsum
    have hn : 0 < n := hpos n (by simp)
    have hsum' : n + ns.sum ≤ (ffFlat st).length := by
      rw [List.sum_cons] at hsum
      omega
    obtain ⟨st2, heq, hfl, hi1, hi2⟩ :=
      ffmpegReadLoop_spec (st.queue.length + n + 2) st false [] n h0 hs
        (by simp only [List.length_nil]; omega)
        (by simp only [List.length_nil]; omega)
        (by simp only [List.length_nil]; omega)
    simp only [List.nil_append, List.length_nil, Nat.sub_zero] at heq hfl
    have hread : ffmpegRead n st = .ok ((ffFlat st).take n) false st2 := heq
    obtain ⟨st3, heq3, hfl3, hj1, hj2⟩ := ih st2 hi1 hi2
      (fun m hm => hpos m (by simp [hm]))
      (by rw [hfl, List.length_drop]; omega)
    refine ⟨st3, ?_, ?_, hj1, hj2⟩
    · rw [readChunks, hread]
      show (readChunks ns st2).map (fun r => (List.take n (ffFlat st) ++ r.1, r.2))
        = some (List.take (n :: ns).sum (ffFlat st), st3)
      rw [heq3]
      show some (List.take n (ffFlat st) ++ List.take ns.sum (ffFlat st2), st3)
        = some (List.take (n :: ns).sum (ffFlat st), st3)
      rw [hfl]
      rw [List.sum_cons, List.take_add]
    · rw [hfl3, hfl, List.drop_drop, List.sum_cons]

/-- The enqueue loop executes all of its select steps: the step counter
advances by exactly the number of remaining palette indices, even when a
cancellation case was taken along the way — the loop is never aborted
early. -/
lemma enqLoop_steps (pal : PaletteGo) (cA : ℕ) (sched : ℕ → Bool) :
    ∀ (k i t : ℕ), (enqLoop pal cA sched k i t).2.2 = t + k := by
  intro k
  induction k with
  | zero => intro i t; rfl
  | succ k ih =>
    intro i t
    show (if t < cA ∨ sched t then
        (pal i :: (enqLoop pal cA sched k (i + 1) (t + 1)).1,
          (enqLoop pal cA sched k (i + 1) (t + 1)).2.1,
          (enqLoop pal cA sched k (i + 1) (t + 1)).2.2)
      else ((enqLoop pal cA sched k (i + 1) (t + 1)).1, true,
          (enqLoop pal cA sched k (i + 1) (t + 1)).2.2)).2.2 = t + (k + 1)
    by_cases hc : t < cA ∨ sched t
    · rw [if_pos hc]
      show (enqLoop pal cA sched k (i + 1) (t + 1)).2.2 = t + (k + 1)
      rw [ih]
      omega
    · rw [if_neg hc]
      show (enqLoop pal cA sched k (i + 1) (t + 1)).2.2 = t + (k + 1)
      rw [ih]
      omega

/-- The stop flag is raised exactly when some select step from `cancelAt` on
picked the ctx.Done case. -/
lemma enqLoop_stop_iff (pal : PaletteGo) (cA : ℕ) (sched : ℕ → Bool) :
    ∀ (k i t : ℕ), (enqLoop pal cA sched k i t).2.1 = true ↔
      ∃ j, j < k ∧ cA ≤ t + j ∧ sched (t + j) = false := by
  intro k
  induction k with
  | zero =>
    intro i t
    constructor
    · intro h
      exact absurd h (by simp [enqLoop])
    · rintro ⟨j, hj, _⟩
      omega
  | succ k ih =>
    intro i t
    show (if t < cA ∨ sched t then
        (pal i :: (enqLoop pal cA sched k (i + 1) (t + 1)).1,
          (enqLoop pal cA sched k (i + 1) (t + 1)).2.1,
          (enqLoop pal cA sched k (i + 1) (t + 1)).2.2)
      else ((enqLoop pal cA sched k (i + 1) (t + 1)).1, true,
          (enqLoop pal cA sched k (i + 1) (t + 1)).2.2)).2.1 = true ↔ _
    by_cases hc : t < cA ∨ sched t
    · rw [if_pos hc]
      show (enqLoop pal cA sched k (i + 1) (t + 1)).2.1 = true ↔ _
      rw [ih]
      constructor
      · rintro ⟨j, hj, hca, hsch⟩
        exact ⟨j + 1, by omega, by omega, by rw [show t + (j + 1) = t + 1 + j by omega]; exact hsch⟩
      · rintro ⟨j, hj, hca, hsch⟩
        match j with
        | 0 =>
          exfalso
          rcases hc with hc | hc
          · omega
          · rw [Nat.add_zero] at hsch
            simp [hsch] at hc
        | j + 1 =>
          exact ⟨j, by omega, by omega, by rw [show t + 1 + j = t + (j + 1) by omega]; exact hsch⟩
    · rw [if_neg hc]
      push_neg at hc
      constructor
      · intro _
        refine ⟨0, by omega, by omega, ?_⟩
        rw [Nat.add_zero]
        have h2 := hc.2
        simpa using h2
      · intro _
        rfl

/-- The fetch loop closes the color queue exactly once, as its final event,
whenever cancellation is observed within the unrolled fetches. -/
lemma fetchLoopGo_close (api : Option (RGBA × RGBA) → PaletteGo) (cA : ℕ)
    (sched : ℕ → Bool) : ∀ (fuel n t : ℕ) (tr : List PalEvent),
    fetchLoopGo api cA sched fuel n t = some tr →
    tr.count PalEvent.closeColorQueue = 1
      ∧ tr.getLast? = some PalEvent.closeColorQueue := by
  intro fuel
  induction fuel with
  | zero =>
    intro n t tr h
    exact absurd h (by simp [fetchLoopGo])
  | succ fuel ih =>
    intro n t tr h
    rw [fetchLoopGo] at h
    by_cases hstop :
        (enqLoop (palSeq api n) cA sched (5 - (if n = 0 then 0 else 2))
          (if n = 0 then 0 else 2) t).2.1 = true
    · rw [if_pos hstop] at h
      have htr := (Option.some.injEq .. ▸ h : _ = tr)
      subst htr
      constructor
      · rw [List.count_append]
        have hzero : PalEvent.closeColorQueue ∉
            (enqLoop (palSeq api n) cA sched (5 - (if n = 0 then 0 else 2))
              (if n = 0 then 0 else 2) t).1.map PalEvent.emit := by
          intro hmem
          obtain ⟨c, _, hc⟩ := List.mem_map.mp hmem
          exact PalEvent.noConfusion hc
        rw [List.count_eq_zero.mpr hzero]
        rfl
      · exact List.getLast?_concat _
    · rw [if_neg hstop] at h
      obtain ⟨tr0, hrec, htr⟩ := Option.map_eq_some'.mp h
      obtain ⟨hcount, hlast⟩ := ih (n + 1) _ tr0 hrec
      subst htr
      constructor
      · rw [List.count_append, hcount]
        have hzero : PalEvent.closeColorQueue ∉
            (enqLoop (palSeq api n) cA sched (5 - (if n = 0 then 0 else 2))
              (if n = 0 then 0 else 2) t).1.map PalEvent.emit := by
          intro hmem
          obtain ⟨c, _, hc⟩ := List.mem_map.mp hmem
          exact PalEvent.noConfusion hc
        rw [List.count_eq_zero.mpr hzero]
      · have hne : tr0 ≠ [] := by
          intro hnil
          rw [hnil] at hlast
          exact Option.noConfusion hlast
        rw [List.getLast?_append_of_ne_nil _ hne]
        exact hlast



/-! # Claim theorems -/

/-- C1 (code bug): the spec says every Read with a non-empty buffer either
fills it completely or — once the FrameQueue is closed and drained — returns a
short count with io.EOF, and the dead `err = io.EOF` assignments
(lineargradient.go:150, cmd/main.go:70) show that intent; but the code never
reaches them: LinearGradientTransition.Read dereferences the nil color
received from the closed channel (runtime panic), and cmd/main.go's
ffmpegInput.Read makes no byte progress and re-receives from the closed
channel forever (no fuel suffices). -/
theorem c1_eof_unreachable :
    lgtRead 1 1 8 ⟨[], true, none, 0⟩ = .panicked
    ∧ (∀ fuel : ℕ, ffmpegReadLoop 8 fuel ⟨[], true, none, 0⟩ false [] = .blocked) :=
  ⟨by decide, fun fuel => ffmpegReadLoop_spin 8 fuel false [] (by decide)⟩

/-- C2 counterexample: the claim asserts the sampled ratio satisfies
`0 ≤ r < 1` for every frame index below transitionFrames, but with
`transitionFrames = 2^24 + 1` and `frame = 2^24` the float32 conversion
rounds 2^24+1 down to 2^24, making the computed ratio exactly 1. -/
theorem c2_counterexample :
    2 ^ 24 < 2 ^ 24 + 1
    ∧ (ratioF32 (2 ^ 24) (2 ^ 24 + 1)).val = 1
    ∧ ¬ (ratioF32 (2 ^ 24) (2 ^ 24 + 1)).val < 1 := by
  have h : ratioF32 (2 ^ 24) (2 ^ 24 + 1) = ⟨2 ^ 23, 2 ^ 23⟩ := by decide
  refine ⟨by norm_num, ?_, ?_⟩
  · rw [h]
    norm_num [Frac.val]
  · rw [h]
    norm_num [Frac.val]

/-- C2 (amended): per complete pair the synthesizer emits exactly
`transitionFrames` frames; the sampled ratio `float32(frame)/float32(tf)`
satisfies `0 ≤ r < 1` provided `tf ≤ 2^24` (for larger counts the conversion
error can make r = 1, see the counterexample); every channel equals the
spec formula `left*(1-r) + right*r` in single-precision, truncated to 8 bits;
frame 0 reproduces `left` exactly; and the spec scenario (width 4, height 2,
transitionFrames 2, black→white) yields two 32-byte frames of (0,0,0,255)
and (127,127,127,255). -/
theorem c2_amended (tf w h frame : ℕ) (c1 c2 : RGBA)
    (hframe : frame < tf) (htf : tf ≤ 2 ^ 24)
    (h1 : c1.r ≤ 255) (h2 : c1.g ≤ 255) (h3 : c1.b ≤ 255) (h4 : c1.a ≤ 255) :
    (pairFrames tf w h c1 c2).length = tf
    ∧ (0 ≤ (ratioF32 frame tf).val ∧ (ratioF32 frame tf).val < 1)
    ∧ (∀ a b r, mixChan a b r = mixSpecChan a b r)
    ∧ mix c1 c2 (ratioF32 0 tf) = c1
    ∧ (synthGo 2 4 2 none [⟨0, 0, 0, 255⟩, ⟨255, 255, 255, 255⟩]).1
        = [(List.replicate 8 [0, 0, 0, 255]).flatten,
           (List.replicate 8 [127, 127, 127, 255]).flatten] :=
  ⟨pairFrames_length tf w h c1 c2, ratioF32_bounds frame tf hframe htf,
   fun _ _ _ => rfl, mix_zero c1 c2 tf h1 h2 h3 h4, by decide⟩

/-- C2 witness: the amended claim at the spec scenario's parameters. -/
theorem c2_amended_witness :
    (pairFrames 2 4 2 ⟨0, 0, 0, 255⟩ ⟨255, 255, 255, 255⟩).length = 2
    ∧ (0 ≤ (ratioF32 1 2).val ∧ (ratioF32 1 2).val < 1)
    ∧ (∀ a b r, mixChan a b r = mixSpecChan a b r)
    ∧ mix ⟨0, 0, 0, 255⟩ ⟨255, 255, 255, 255⟩ (ratioF32 0 2) = ⟨0, 0, 0, 255⟩
    ∧ (synthGo 2 4 2 none [⟨0, 0, 0, 255⟩, ⟨255, 255, 255, 255⟩]).1
        = [(List.replicate 8 [0, 0, 0, 255]).flatten,
           (List.replicate 8 [127, 127, 127, 255]).flatten] :=
  c2_amended 2 4 2 1 ⟨0, 0, 0, 255⟩ ⟨255, 255, 255, 255⟩ (by decide) (by decide)
    (by decide) (by decide) (by decide) (by decide)

/-- C3 (code bug): cmd/main.go's synthesis goroutine produces exactly
`N * transitionFrames * width * height * 4` bytes for `N` completed pairs
(first conjunct, N = number of colors - 1), but the part_000 variant's
ffmpegInput.Read advances its pixel counter by one per 4 output bytes against
a bound of `ImageSize*4`, so a single 1-pixel frame read with a 16-byte buffer
contributes 16 bytes instead of `width*height*4 = 4`. -/
theorem c3_part000_expansion :
    (∀ (tf w h : ℕ) (cols : List RGBA),
      (synthGo tf w h none cols).1.flatten.length = (cols.length - 1) * (tf * (w * h * 4)))
    ∧ p0Read 1 16 ⟨[⟨1, 2, 3, 4⟩], true, none, 0⟩
        = .ok [1, 2, 3, 4, 1, 2, 3, 4, 1, 2, 3, 4, 1, 2, 3, 4] false ⟨[], true, none, 0⟩
    ∧ (16 : ℕ) ≠ 1 * 1 * 4 :=
  ⟨fun tf w h cols => synthGo_total_bytes tf w h cols, by decide, by decide⟩

/-- C4 (code bug): the spec fixes R,G,B,A byte order as the intent, but
LinearGradientTransition.Read writes `out[j+1] = col.B` and `out[j+2] = col.B`
(lineargradient.go:136-137), so color (10,20,30,40) is emitted as
(10,30,30,40); the part_000 variant writes the four channels in the correct
order. -/
theorem c4_channel_swap :
    lgtRead 1 1 4 ⟨[⟨10, 20, 30, 40⟩], true, none, 0⟩
      = .ok [10, 30, 30, 40] false ⟨[], true, none, 0⟩
    ∧ [10, 30, 30, 40] ≠ [10, 20, 30, 40]
    ∧ p0Read 1 4 ⟨[⟨10, 20, 30, 40⟩], true, none, 0⟩
      = .ok [10, 20, 30, 40] false ⟨[], true, none, 0⟩ :=
  ⟨by decide, by decide, by decide⟩

/-- A concrete palette API model for the C5 counterexample and witnesses: it
echoes the seed into positions 0 and 1 (the spec's "the first 2 duplicate the
seed") and returns fresh colors elsewhere. -/
def cexApi : Option (RGBA × RGBA) → PaletteGo := fun seed i =>
  match seed with
  | none => ⟨i, i, i, 255⟩
  | some (x, y) => if i = 0 then x else if i = 1 then y else ⟨100 + i, 0, 0, 255⟩

/-- C5 counterexample: the first two colors of the second palette's EMITTED
subset are the palette's colors 2 and 3, not the first palette's colors 3 and
4 — the colors equal to the seed are exactly the ones skipped from
emission. -/
theorem c5_counterexample :
    ((palEmitted cexApi 2).drop 5).take 2 = [⟨102, 0, 0, 255⟩, ⟨103, 0, 0, 255⟩]
    ∧ [palSeq cexApi 0 3, palSeq cexApi 0 4] = [⟨3, 3, 3, 255⟩, ⟨4, 4, 4, 255⟩]
    ∧ ((palEmitted cexApi 2).drop 5).take 2 ≠ [palSeq cexApi 0 3, palSeq cexApi 0 4] := by
  decide

/-- C5 (amended): the first fetch emits all five palette colors in order and
every later fetch emits exactly indices 2,3,4; the seed passed to fetch n+1 is
palette n's colors 3 and 4, so — whenever the API echoes its seed — the SECOND
PALETTE'S FIRST TWO COLORS (the two skipped from emission) equal the first
palette's last two colors. -/
theorem c5_amended (api : Option (RGBA × RGBA) → PaletteGo)
    (hecho : ∀ x y, api (some (x, y)) 0 = x ∧ api (some (x, y)) 1 = y) (n : ℕ) :
    palEmitted api 1
      = [palSeq api 0 0, palSeq api 0 1, palSeq api 0 2, palSeq api 0 3, palSeq api 0 4]
    ∧ palEmitted api (n + 2) = palEmitted api (n + 1)
        ++ [palSeq api (n + 1) 2, palSeq api (n + 1) 3, palSeq api (n + 1) 4]
    ∧ palSeq api (n + 1) 0 = palSeq api n 3
    ∧ palSeq api (n + 1) 1 = palSeq api n 4 := by
  refine ⟨by simp [palEmitted], by simp [palEmitted], ?_, ?_⟩
  · show api (some (palSeq api n 3, palSeq api n 4)) 0 = palSeq api n 3
    exact (hecho _ _).1
  · show api (some (palSeq api n 3, palSeq api n 4)) 1 = palSeq api n 4
    exact (hecho _ _).2

/-- C5 witness: the amended claim at the concrete echoing API. -/
theorem c5_amended_witness :
    palEmitted cexApi 1
      = [palSeq cexApi 0 0, palSeq cexApi 0 1, palSeq cexApi 0 2, palSeq cexApi 0 3,
         palSeq cexApi 0 4]
    ∧ palEmitted cexApi 2 = palEmitted cexApi 1
        ++ [palSeq cexApi 1 2, palSeq cexApi 1 3, palSeq cexApi 1 4]
    ∧ palSeq cexApi 1 0 = palSeq cexApi 0 3
    ∧ palSeq cexApi 1 1 = palSeq cexApi 0 4 :=
  c5_amended cexApi (fun x y => ⟨rfl, rfl⟩) 0

/-- C6 (code bug): when the ColorQueue closes, neither variant closes the
FrameQueue.  LinearGradientTransition.Run emits the pair's frames and then
panics on a nil color before its close statement (the trace ends in
`panicEvt`, not `closeOut`); producer.go's makeImages never even finishes the
in-flight pair: its `continue`-based pairing emits a pair's frames only when
a third color arrives (dropping that color), so a pair completed right before
close emits nothing — the trace of [black, white] then close is empty, while
[black, white, c] emits the black→white frames and nothing for c — and the
function body contains no close at all, so no makeImages trace from any
state ever contains `closeOut`. -/
theorem c6_no_close_on_drain :
    lgtRunTrace 2 none [⟨0, 0, 0, 255⟩, ⟨255, 255, 255, 255⟩]
      = [.outColor ⟨0, 0, 0, 255⟩, .outColor ⟨127, 127, 127, 255⟩, .panicEvt]
    ∧ SynthEvent.closeOut ∉ lgtRunTrace 2 none [⟨0, 0, 0, 255⟩, ⟨255, 255, 255, 255⟩]
    ∧ makeImagesTrace 2 none none [⟨0, 0, 0, 255⟩, ⟨255, 255, 255, 255⟩] = []
    ∧ makeImagesTrace 2 none none
        [⟨0, 0, 0, 255⟩, ⟨255, 255, 255, 255⟩, ⟨9, 9, 9, 255⟩]
      = [.outColor ⟨0, 0, 0, 255⟩, .outColor ⟨127, 127, 127, 255⟩]
    ∧ (∀ (tf : ℕ) (cols : List RGBA) (lopt ropt : Option RGBA),
        SynthEvent.closeOut ∉ makeImagesTrace tf lopt ropt cols) :=
  ⟨by decide, by decide, by decide, by decide,
   fun tf cols lopt ropt => makeImagesTrace_no_close tf cols lopt ropt⟩

/-- C7 counterexample: the pixel-loop variant LinearGradientTransition.Read
does not tolerate buffer sizes that are not multiples of 4 — with a 6-byte
buffer it writes past the buffer end (slice-bounds panic) instead of returning
the 6-byte prefix of the stream. -/
theorem c7_counterexample :
    lgtRead 1 1 6 ⟨[⟨1, 2, 3, 4⟩, ⟨5, 6, 7, 8⟩], true, none, 0⟩ = .panicked
    ∧ ∀ st, lgtRead 1 1 6 ⟨[⟨1, 2, 3, 4⟩, ⟨5, 6, 7, 8⟩], true, none, 0⟩
        ≠ .ok [1, 3, 3, 4, 5, 7] false st := by
  have h1 : lgtRead 1 1 6 ⟨[⟨1, 2, 3, 4⟩, ⟨5, 6, 7, 8⟩], true, none, 0⟩ = .panicked := by
    decide
  exact ⟨h1, fun st h => ReadRes.noConfusion (h1 ▸ h)⟩

/-- C7 (amended): for any fixed frame sequence and any sequence of positive
buffer sizes, reading through cmd/main.go's ffmpegInput.Read yields exactly
the prefix of the flattened byte stream — the same bytes as one large Read of
the total size; no byte is duplicated or dropped.  (The frame-package pixel
loops additionally require buffer lengths divisible by 4, see the
counterexample.) -/
theorem c7_amended (frames : List (List ℕ)) (closed : Bool) (ns : List ℕ)
    (hpos : ∀ n ∈ ns, 0 < n) (hsum : ns.sum ≤ frames.flatten.length) :
    (∃ stc, readChunks ns ⟨frames, closed, none, 0⟩
        = some (frames.flatten.take ns.sum, stc))
    ∧ (0 < ns.sum → ∃ sts, ffmpegRead ns.sum ⟨frames, closed, none, 0⟩
        = .ok (frames.flatten.take ns.sum) false sts) := by
  have hflat : ffFlat ⟨frames, closed, none, 0⟩ = frames.flatten := by
    simp [ffFlat]
  constructor
  · obtain ⟨st2, heq, _, _, _⟩ := readChunks_spec ns ⟨frames, closed, none, 0⟩
      (fun _ => rfl) (fun i h => absurd h (by simp)) hpos (by rw [hflat]; exact hsum)
    rw [hflat] at heq
    exact ⟨st2, heq⟩
  · intro hpos2
    obtain ⟨st2, heq, _, _, _⟩ := ffmpegReadLoop_spec (frames.length + ns.sum + 2)
      ⟨frames, closed, none, 0⟩ false [] ns.sum (fun _ => rfl)
      (fun i h => absurd h (by simp))
      (by rw [hflat]; simpa using hsum)
      (by simpa using hpos2)
      (by simp)
    simp only [List.nil_append, List.length_nil, Nat.sub_zero] at heq
    rw [hflat] at heq
    exact ⟨st2, heq⟩

/-- C7 witness: chunked reads of sizes 2 and 2 over frames [1,2,3],[4,5]. -/
theorem c7_amended_witness :
    (∃ stc, readChunks [2, 2] ⟨[[1, 2, 3], [4, 5]], true, none, 0⟩
        = some ([[1, 2, 3], [4, 5]].flatten.take ([2, 2] : List ℕ).sum, stc))
    ∧ (0 < ([2, 2] : List ℕ).sum →
        ∃ sts, ffmpegRead ([2, 2] : List ℕ).sum ⟨[[1, 2, 3], [4, 5]], true, none, 0⟩
          = .ok ([[1, 2, 3], [4, 5]].flatten.take ([2, 2] : List ℕ).sum) false sts) :=
  c7_amended [[1, 2, 3], [4, 5]] true [2, 2] (by decide) (by decide)

/-- The schedule and palette used by the C8 counterexample and witness:
cancellation becomes observable at global select step 2, and at step 2 the
runtime picks the ctx.Done case while at every other step it picks the
send. -/
def cexSched : ℕ → Bool := fun t => decide (t ≠ 2)

def cexPal : PaletteGo := fun i => ⟨i, 0, 0, 255⟩

/-- C8 counterexample: cancellation is observed at select step 2 (the stop
flag is raised), yet the palette's colors at indices 3 and 4 are still
enqueued afterwards — the enqueue loop is not aborted, contradicting the
claim that no further colors of that palette are enqueued. -/
theorem c8_counterexample :
    (enqLoop cexPal 2 cexSched 5 0 0).2.1 = true
    ∧ (enqLoop cexPal 2 cexSched 5 0 0).1
        = [⟨0, 0, 0, 255⟩, ⟨1, 0, 0, 255⟩, ⟨3, 0, 0, 255⟩, ⟨4, 0, 0, 255⟩]
    ∧ (enqLoop cexPal 2 cexSched 5 0 0).1 ≠ [⟨0, 0, 0, 255⟩, ⟨1, 0, 0, 255⟩] := by
  decide

/-- C8 (amended): a cancellation observed while enqueuing signals termination,
but the enqueue loop is not aborted: it executes a select step for every
remaining index (the step counter always advances by the full count), each of
which may still send depending on the runtime's choice; the stop flag is
raised exactly when some step from the cancellation on picked ctx.Done; and
once a fetch iteration observed the stop, the loop exits and the ColorQueue is
closed exactly once, as the final event. -/
theorem c8_amended (api : Option (RGBA × RGBA) → PaletteGo) (cA : ℕ)
    (sched : ℕ → Bool) (fuel n t : ℕ) (tr : List PalEvent)
    (h : fetchLoopGo api cA sched fuel n t = some tr) :
    (tr.count PalEvent.closeColorQueue = 1
      ∧ tr.getLast? = some PalEvent.closeColorQueue)
    ∧ (∀ (pal : PaletteGo) (k i t0 : ℕ), (enqLoop pal cA sched k i t0).2.2 = t0 + k)
    ∧ (∀ (pal : PaletteGo) (k i t0 : ℕ), (enqLoop pal cA sched k i t0).2.1 = true ↔
        ∃ j, j < k ∧ cA ≤ t0 + j ∧ sched (t0 + j) = false) :=
  ⟨fetchLoopGo_close api cA sched fuel n t tr h,
   fun pal k i t0 => enqLoop_steps pal cA sched k i t0,
   fun pal k i t0 => enqLoop_stop_iff pal cA sched k i t0⟩

/-- C8 witness: the amended claim at the concrete cancelled run. -/
theorem c8_amended_witness :
    (([PalEvent.emit ⟨0, 0, 0, 255⟩, PalEvent.emit ⟨1, 1, 1, 255⟩,
        PalEvent.emit ⟨3, 3, 3, 255⟩, PalEvent.emit ⟨4, 4, 4, 255⟩,
        PalEvent.closeColorQueue] : List PalEvent).count PalEvent.closeColorQueue = 1
      ∧ ([PalEvent.emit ⟨0, 0, 0, 255⟩, PalEvent.emit ⟨1, 1, 1, 255⟩,
          PalEvent.emit ⟨3, 3, 3, 255⟩, PalEvent.emit ⟨4, 4, 4, 255⟩,
          PalEvent.closeColorQueue] : List PalEvent).getLast?
        = some PalEvent.closeColorQueue)
    ∧ (∀ (pal : PaletteGo) (k i t0 : ℕ), (enqLoop pal 2 cexSched k i t0).2.2 = t0 + k)
    ∧ (∀ (pal : PaletteGo) (k i t0 : ℕ), (enqLoop pal 2 cexSched k i t0).2.1 = true ↔
        ∃ j, j < k ∧ 2 ≤ t0 + j ∧ cexSched (t0 + j) = false) :=
  c8_amended cexApi 2 cexSched 1 0 0
    [PalEvent.emit ⟨0, 0, 0, 255⟩, PalEvent.emit ⟨1, 1, 1, 255⟩,
     PalEvent.emit ⟨3, 3, 3, 255⟩, PalEvent.emit ⟨4, 4, 4, 255⟩,
     PalEvent.closeColorQueue] (by decide)

/-- C9 counterexample: interpolating the color value 15 with itself at the
sampled ratio float32(1)/float32(3) yields 14, not 15 — the float32 products
round down and the truncation drops the channel by one. -/
theorem c9_counterexample :
    mixChan 15 15 (ratioF32 1 3) = 14 ∧ (14 : ℕ) ≠ 15 := by decide

/-- C9 (amended): interpolating a color with itself at the sampled ratio of
frame 0 yields the color exactly on all four channels; at other sampled
ratios the result can be one below the channel value (see the
counterexample). -/
theorem c9_amended (c : RGBA) (tf : ℕ) (h1 : c.r ≤ 255) (h2 : c.g ≤ 255)
    (h3 : c.b ≤ 255) (h4 : c.a ≤ 255) : mix c c (ratioF32 0 tf) = c :=
  mix_zero c c tf h1 h2 h3 h4

/-- C9 witness: the amended claim at a concrete color. -/
theorem c9_amended_witness :
    mix ⟨15, 200, 7, 255⟩ ⟨15, 200, 7, 255⟩ (ratioF32 0 3) = ⟨15, 200, 7, 255⟩ :=
  c9_amended ⟨15, 200, 7, 255⟩ 3 (by decide) (by decide) (by decide) (by decide)

/-- C10: every color produced by parsing a palette API response — via
Color.Unmarshal or Palette.UnmarshalJSON — has alpha exactly 255 regardless of
the payload, so every color the palette source enqueues is fully opaque. -/
theorem c10_alpha_255 :
    (∀ v : ℕ × ℕ × ℕ, (colorUnmarshal v).a = 255)
    ∧ (∀ (vs : Fin 5 → ℕ × ℕ × ℕ) (i : Fin 5), (paletteUnmarshalJSON vs i).a = 255) :=
  ⟨fun _ => rfl, fun _ _ => rfl⟩


end ColorRun
